import Mathlib

/-!
Verification of the `roasort` ROA canonicalization core.

This file shallowly embeds the data model and operations of the program:
the tri-state max-length qualifier, the address-family polymorphic
prefix-range record with its total order, the text decoder/renderer, the
deduplicating index-tracking collection, and the OID checks of the binary
decode pipeline.  Machine integers are modelled as `Nat`; fallible code
returns `Option` or `Except`.
-/

set_option maxHeartbeats 1000000

/-- Three-way comparison of naturals, the model of `Ord for u8/u32/u128`
field comparisons used by the source. -/
def ncmp (a b : Nat) : Ordering :=
  if a < b then .lt else if b < a then .gt else .eq

theorem ncmp_lt_iff {a b : Nat} : ncmp a b = .lt ↔ a < b := by
  unfold ncmp
  split
  · simp_all
  · split <;> simp_all

theorem ncmp_gt_iff {a b : Nat} : ncmp a b = .gt ↔ b < a := by
  unfold ncmp
  split
  · simp_all
    omega
  · split <;> simp_all

theorem ncmp_eq_iff {a b : Nat} : ncmp a b = .eq ↔ a = b := by
  unfold ncmp
  split
  · simp_all
    omega
  · split <;> simp_all <;> omega

theorem ncmp_self (a : Nat) : ncmp a a = .eq := by
  simp [ncmp_eq_iff]

theorem then_eq_eq {x y : Ordering} : x.then y = .eq ↔ x = .eq ∧ y = .eq := by
  cases x <;> simp [Ordering.then]

theorem then_eq_lt {x y : Ordering} : x.then y = .lt ↔ x = .lt ∨ (x = .eq ∧ y = .lt) := by
  cases x <;> simp [Ordering.then]

theorem then_eq_gt {x y : Ordering} : x.then y = .gt ↔ x = .gt ∨ (x = .eq ∧ y = .gt) := by
  cases x <;> simp [Ordering.then]

/-- The two concrete address families (`ip::Ipv4`, `ip::Ipv6`). -/
inductive AfiT where
  | ipv4
  | ipv6
deriving DecidableEq, Repr

/-- Bit width of addresses of a family (`Afi::MAX_LENGTH`). -/
def AfiT.width : AfiT → Nat
  | .ipv4 => 32
  | .ipv6 => 128

/-- An IP network: address bits plus a length.  Models `ip::concrete::Prefix<A>`
at its interface: `addr` is what the source reads via `.prefix()` and `len`
what it reads via `.length()` (field names differ from the library's because
`prefix` is unavailable here). -/
structure IpPrefix where
  addr : Nat
  len : Nat
deriving DecidableEq, Repr

/-- `MaxLength<A>` from `src/ir.rs`: the tri-state max-length qualifier.
The `PrefixLength<A>` payload is modelled as `Nat`. -/
inductive MaxLength where
  | implicitEqual
  | explicitEqual
  | explicit (l : Nat)
deriving DecidableEq, Repr

/-- `Ord for MaxLength` (`src/ir.rs` lines 38-50): the two equal-class
variants are order-equivalent, both below any `explicit`, and `explicit`
payloads compare numerically. -/
def MaxLength.cmp : MaxLength → MaxLength → Ordering
  | .implicitEqual, .implicitEqual => .eq
  | .implicitEqual, .explicitEqual => .eq
  | .explicitEqual, .implicitEqual => .eq
  | .explicitEqual, .explicitEqual => .eq
  | .implicitEqual, .explicit _ => .lt
  | .explicitEqual, .explicit _ => .lt
  | .explicit _, .implicitEqual => .gt
  | .explicit _, .explicitEqual => .gt
  | .explicit p, .explicit q => ncmp p q

/-- `PartialEq for MaxLength` (`src/ir.rs` lines 24-28): equality is defined
as the comparison returning `Equal`. -/
def MaxLength.beq (a b : MaxLength) : Bool :=
  a.cmp b == .eq

/-- `InnerRoaPrefixRange<A>` (`src/ir.rs` lines 52-56): a prefix plus its
qualifier. -/
structure InnerRoaPrefixRange where
  pfx : IpPrefix
  maxLength : MaxLength
deriving DecidableEq, Repr

/-- `Ord for InnerRoaPrefixRange` (`src/ir.rs` lines 91-101): network
address, then prefix length, then qualifier. -/
def InnerRoaPrefixRange.cmp (a b : InnerRoaPrefixRange) : Ordering :=
  match ncmp a.pfx.addr b.pfx.addr with
  | .eq =>
    match ncmp a.pfx.len b.pfx.len with
    | .eq => a.maxLength.cmp b.maxLength
    | ord => ord
  | ord => ord

/-- Structural equality on the prefix component (derived `PartialEq` of the
library's `Prefix<A>`: address and length fields). -/
def IpPrefix.beq (a b : IpPrefix) : Bool :=
  a.addr == b.addr && a.len == b.len

/-- Derived `PartialEq for InnerRoaPrefixRange` (`src/ir.rs` line 52):
field-wise, using the custom `MaxLength` equality. -/
def InnerRoaPrefixRange.beq (a b : InnerRoaPrefixRange) : Bool :=
  a.pfx.beq b.pfx && a.maxLength.beq b.maxLength

/-- `RoaPrefixRange` (`src/ir.rs` lines 113-117): the closed two-variant
union over address families. -/
inductive RoaPrefixRange where
  | ipv4 (inner : InnerRoaPrefixRange)
  | ipv6 (inner : InnerRoaPrefixRange)
deriving DecidableEq, Repr

/-- `RoaPrefixRange::has_explicit_equal_max_length` (`src/ir.rs` lines
120-126): true exactly when the stored qualifier is `ExplicitEqual`. -/
def RoaPrefixRange.has_explicit_equal_max_length : RoaPrefixRange → Bool
  | .ipv4 inner =>
    match inner.maxLength with
    | .explicitEqual => true
    | _ => false
  | .ipv6 inner =>
    match inner.maxLength with
    | .explicitEqual => true
    | _ => false

/-- `Ord for RoaPrefixRange` (`src/ir.rs` lines 128-137): all v4 records
precede all v6 records; within a family the inner comparison applies. -/
def RoaPrefixRange.cmp : RoaPrefixRange → RoaPrefixRange → Ordering
  | .ipv4 i, .ipv4 j => i.cmp j
  | .ipv4 _, .ipv6 _ => .lt
  | .ipv6 _, .ipv4 _ => .gt
  | .ipv6 i, .ipv6 j => i.cmp j

/-- Derived `PartialEq for RoaPrefixRange` (`src/ir.rs` line 113):
same variant and equal inner records. -/
def RoaPrefixRange.beq : RoaPrefixRange → RoaPrefixRange → Bool
  | .ipv4 i, .ipv4 j => i.beq j
  | .ipv6 i, .ipv6 j => i.beq j
  | _, _ => false

/-- Sort key: the comparison on records is lexicographic on this tuple of
naturals (family tag, address, length, qualifier class, qualifier payload). -/
structure SortKey where
  fam : Nat
  addr : Nat
  len : Nat
  qt : Nat
  ql : Nat
deriving DecidableEq, Repr

/-- Lexicographic comparison of sort keys. -/
def SortKey.cmp (k j : SortKey) : Ordering :=
  (ncmp k.fam j.fam).then <| (ncmp k.addr j.addr).then <|
    (ncmp k.len j.len).then <| (ncmp k.qt j.qt).then (ncmp k.ql j.ql)

/-- Sort key of a qualifier: class tag (equal-class before explicit) and
payload. -/
def MaxLength.qkey : MaxLength → Nat × Nat
  | .implicitEqual => (0, 0)
  | .explicitEqual => (0, 0)
  | .explicit l => (1, l)

/-- Sort key of a record. -/
def RoaPrefixRange.key : RoaPrefixRange → SortKey
  | .ipv4 i => ⟨0, i.pfx.addr, i.pfx.len, (i.maxLength.qkey).1, (i.maxLength.qkey).2⟩
  | .ipv6 i => ⟨1, i.pfx.addr, i.pfx.len, (i.maxLength.qkey).1, (i.maxLength.qkey).2⟩

theorem MaxLength.cmp_eq_qkey (a b : MaxLength) :
    a.cmp b = (ncmp a.qkey.1 b.qkey.1).then (ncmp a.qkey.2 b.qkey.2) := by
  cases a <;> cases b <;> simp [MaxLength.cmp, MaxLength.qkey, ncmp, Ordering.then]

theorem RoaPrefixRange.cmp_eq_key (a b : RoaPrefixRange) :
    a.cmp b = SortKey.cmp a.key b.key := by
  have inner : ∀ (f : Nat) (i j : InnerRoaPrefixRange),
      i.cmp j = SortKey.cmp ⟨f, i.pfx.addr, i.pfx.len, i.maxLength.qkey.1, i.maxLength.qkey.2⟩
        ⟨f, j.pfx.addr, j.pfx.len, j.maxLength.qkey.1, j.maxLength.qkey.2⟩ := by
    intro f i j
    simp only [SortKey.cmp, ncmp_self, Ordering.then]
    rw [InnerRoaPrefixRange.cmp, MaxLength.cmp_eq_qkey]
    rcases h₁ : ncmp i.pfx.addr j.pfx.addr <;> rcases h₂ : ncmp i.pfx.len j.pfx.len <;>
      simp [Ordering.then]
  cases a <;> cases b <;>
    simp only [RoaPrefixRange.cmp, RoaPrefixRange.key] <;>
    first
      | exact inner _ _ _
      | simp [SortKey.cmp, ncmp, Ordering.then]

theorem SortKey.cmp_eq_iff {k j : SortKey} : SortKey.cmp k j = .eq ↔ k = j := by
  cases k; cases j
  simp [SortKey.cmp, then_eq_eq, ncmp_eq_iff, SortKey.mk.injEq]

theorem SortKey.cmp_lt_iff {k j : SortKey} :
    SortKey.cmp k j = .lt ↔
      k.fam < j.fam ∨ (k.fam = j.fam ∧ (k.addr < j.addr ∨ (k.addr = j.addr ∧
        (k.len < j.len ∨ (k.len = j.len ∧ (k.qt < j.qt ∨ (k.qt = j.qt ∧
          k.ql < j.ql))))))) := by
  simp [SortKey.cmp, then_eq_lt, then_eq_eq, ncmp_eq_iff, ncmp_lt_iff]

theorem SortKey.gt_iff_swap_lt {k j : SortKey} :
    SortKey.cmp k j = .gt ↔ SortKey.cmp j k = .lt := by
  simp only [SortKey.cmp, then_eq_gt, then_eq_lt, then_eq_eq, ncmp_eq_iff,
    ncmp_lt_iff, ncmp_gt_iff]
  constructor <;> (intro h; omega)

theorem SortKey.lt_trans_key {a b c : SortKey} (h₁ : SortKey.cmp a b = .lt)
    (h₂ : SortKey.cmp b c = .lt) : SortKey.cmp a c = .lt := by
  rw [SortKey.cmp_lt_iff] at h₁ h₂ ⊢
  omega

theorem RoaPrefixRange.cmp_eq_comm {a b : RoaPrefixRange} (h : a.cmp b = .eq) :
    b.cmp a = .eq := by
  rw [RoaPrefixRange.cmp_eq_key, SortKey.cmp_eq_iff] at h ⊢
  exact h.symm

theorem RoaPrefixRange.cmp_eq_iff_key {a b : RoaPrefixRange} :
    a.cmp b = .eq ↔ a.key = b.key := by
  rw [RoaPrefixRange.cmp_eq_key, SortKey.cmp_eq_iff]

theorem RoaPrefixRange.cmp_gt_iff {a b : RoaPrefixRange} :
    a.cmp b = .gt ↔ b.cmp a = .lt := by
  rw [RoaPrefixRange.cmp_eq_key, RoaPrefixRange.cmp_eq_key, SortKey.gt_iff_swap_lt]

theorem RoaPrefixRange.cmp_lt_trans {a b c : RoaPrefixRange}
    (h₁ : a.cmp b = .lt) (h₂ : b.cmp c = .lt) : a.cmp c = .lt := by
  rw [RoaPrefixRange.cmp_eq_key] at h₁ h₂ ⊢
  exact SortKey.lt_trans_key h₁ h₂

theorem RoaPrefixRange.cmp_congr_left {a b c : RoaPrefixRange}
    (h : a.cmp b = .eq) : a.cmp c = b.cmp c := by
  rw [RoaPrefixRange.cmp_eq_key, RoaPrefixRange.cmp_eq_key,
    RoaPrefixRange.cmp_eq_iff_key.mp h]

theorem RoaPrefixRange.cmp_eq_trans {a b c : RoaPrefixRange}
    (h₁ : a.cmp b = .eq) (h₂ : b.cmp c = .eq) : a.cmp c = .eq := by
  rw [RoaPrefixRange.cmp_congr_left h₁]
  exact h₂

/-- The error kinds the program's fallible operations surface (the source
uses `anyhow` errors with messages; the constructors here name the distinct
failure sites). -/
inductive RoaError where
  | parseError
  | invalidRange
  | invalidSignedDataOid
  | cmsDecodeError
  | invalidRoaEContentOid
  | missingEContent
  | eContentDecodeError
  | invalidAddressFamily
  | addrDecodeError
deriving DecidableEq, Repr

/-- `InnerRoaPrefixRange::new` (`src/ir.rs` lines 59-83): the single
construction rule shared by the text and binary paths.  A supplied
max-length below the prefix length is rejected; equality yields
`ExplicitEqual`; excess yields `Explicit`. -/
def InnerRoaPrefixRange.new (p : IpPrefix) (maxLength : Option Nat) :
    Except RoaError InnerRoaPrefixRange :=
  match maxLength with
  | some ml =>
    match ncmp ml p.len with
    | .lt => .error .invalidRange
    | .eq => .ok ⟨p, .explicitEqual⟩
    | .gt => .ok ⟨p, .explicit ml⟩
  | none => .ok ⟨p, .implicitEqual⟩

/-- The ordered map underlying `RoaPrefixRanges` (`BTreeMap<RoaPrefixRange,
usize>`), modelled as an association list kept sorted by the record order. -/
abbrev RangeMap := List (RoaPrefixRange × Nat)

/-- One step of `BTreeMap::from_iter` dedup semantics (`collect()` in
`src/ir.rs` lines 208-220 sorts the pairs and keeps only the last pair of
each run of Ord-equal keys): inserting a pair on an Ord-equal key replaces
the whole stored entry, key included. -/
def insertRange (k : RoaPrefixRange) (v : Nat) : RangeMap → RangeMap
  | [] => [(k, v)]
  | (k', v') :: rest =>
    match k.cmp k' with
    | .lt => (k, v) :: (k', v') :: rest
    | .eq => (k, v) :: rest
    | .gt => (k', v') :: insertRange k v rest

/-- Folding the enumerated record sequence into the map, continuing from
index `i`. -/
def buildAux : List RoaPrefixRange → Nat → RangeMap → RangeMap
  | [], _, acc => acc
  | r :: rest, i, acc => buildAux rest (i + 1) (insertRange r i acc)

/-- `FromIterator<RoaPrefixRange> for RoaPrefixRanges` (`src/ir.rs` lines
208-220): enumerate the records and collect the `(record, index)` pairs
into the ordered map; for Ord-equal keys the last pair wins (the behavior
`BTreeMap::from_iter` gives `collect`, confirmed by the crate's own
`read_from_text` test, which requires 3 diagnostics, not 2). -/
def RoaPrefixRanges.build (rs : List RoaPrefixRange) : RangeMap :=
  buildAux rs 0 []

/-- `BTreeMap` entry access by Ord-equality: the entry whose key compares
`Equal` to `r`. -/
def lookupOrd (r : RoaPrefixRange) (m : RangeMap) : Option (RoaPrefixRange × Nat) :=
  m.find? (fun e => e.1.cmp r == .eq)

/-- The last `(record, position)` pair of the input sequence whose record is
Ord-equal to `r`, positions counted from `i`. -/
def lastOrdEntryAux (r : RoaPrefixRange) :
    List RoaPrefixRange → Nat → Option (RoaPrefixRange × Nat)
  | [], _ => none
  | x :: rest, i =>
    match lastOrdEntryAux r rest (i + 1) with
    | some e => some e
    | none => if x.cmp r = .eq then some (x, i) else none

/-- The last `(record, 0-based position)` pair of `rs` Ord-equal to `r`. -/
def lastOrdEntry (rs : List RoaPrefixRange) (r : RoaPrefixRange) :
    Option (RoaPrefixRange × Nat) :=
  lastOrdEntryAux r rs 0

theorem obeq_true {a b : Ordering} : (a == b) = true ↔ a = b := by
  cases a <;> cases b <;> decide

theorem obeq_false {a b : Ordering} : (a == b) = false ↔ a ≠ b := by
  cases a <;> cases b <;> decide

theorem lookupOrd_insert_ne {k r : RoaPrefixRange} {v : Nat} {m : RangeMap}
    (h : k.cmp r ≠ .eq) : lookupOrd r (insertRange k v m) = lookupOrd r m := by
  have hb : (k.cmp r == .eq) = false := obeq_false.mpr h
  induction m with
  | nil => simp [insertRange, lookupOrd, List.find?, hb]
  | cons hd tl ih =>
    obtain ⟨k', v'⟩ := hd
    simp only [insertRange]
    rcases hc : k.cmp k' with _ | _ | _
    · simp [lookupOrd, List.find?, hb]
    · have hk' : k'.cmp r ≠ .eq := by
        rw [RoaPrefixRange.cmp_congr_left (RoaPrefixRange.cmp_eq_comm hc)]
        exact h
      have hb' : (k'.cmp r == .eq) = false := obeq_false.mpr hk'
      simp [lookupOrd, List.find?, hb, hb']
    · by_cases hk' : k'.cmp r = .eq
      · have hb' : (k'.cmp r == .eq) = true := obeq_true.mpr hk'
        simp [lookupOrd, List.find?, hb']
      · have hb' : (k'.cmp r == .eq) = false := obeq_false.mpr hk'
        simpa [lookupOrd, List.find?, hb'] using ih

theorem lookupOrd_insert_eq {k r : RoaPrefixRange} {v : Nat} {m : RangeMap}
    (hk : k.cmp r = .eq) : lookupOrd r (insertRange k v m) = some (k, v) := by
  have hb : (k.cmp r == .eq) = true := obeq_true.mpr hk
  induction m with
  | nil => simp [insertRange, lookupOrd, List.find?, hb]
  | cons hd tl ih =>
    obtain ⟨k', v'⟩ := hd
    simp only [insertRange]
    rcases hc : k.cmp k' with _ | _ | _
    · simp [lookupOrd, List.find?, hb]
    · simp [lookupOrd, List.find?, hb]
    · have hk'r : k'.cmp r ≠ .eq := by
        intro hx
        have heq : k.cmp k' = .eq :=
          RoaPrefixRange.cmp_eq_trans hk (RoaPrefixRange.cmp_eq_comm hx)
        rw [heq] at hc
        cases hc
      have hb' : (k'.cmp r == .eq) = false := obeq_false.mpr hk'r
      simpa [lookupOrd, List.find?, hb'] using ih

theorem buildAux_lookup_none {r : RoaPrefixRange} {rs : List RoaPrefixRange}
    {i : Nat} {acc : RangeMap} (hnone : lastOrdEntryAux r rs i = none) :
    lookupOrd r (buildAux rs i acc) = lookupOrd r acc := by
  induction rs generalizing i acc with
  | nil => rfl
  | cons x rest ih =>
    simp only [lastOrdEntryAux] at hnone
    rcases haux : lastOrdEntryAux r rest (i + 1) with _ | e
    · rw [haux] at hnone
      by_cases hx : x.cmp r = .eq
      · rw [if_pos hx] at hnone
        cases hnone
      · simp only [buildAux]
        rw [ih haux, lookupOrd_insert_ne hx]
    · rw [haux] at hnone
      cases hnone

theorem buildAux_lookup_some {r : RoaPrefixRange} {rs : List RoaPrefixRange}
    {i : Nat} {e : RoaPrefixRange × Nat} {acc : RangeMap}
    (hlast : lastOrdEntryAux r rs i = some e) :
    lookupOrd r (buildAux rs i acc) = some e := by
  induction rs generalizing i acc with
  | nil => cases hlast
  | cons x rest ih =>
    simp only [lastOrdEntryAux] at hlast
    simp only [buildAux]
    rcases haux : lastOrdEntryAux r rest (i + 1) with _ | e'
    · rw [haux] at hlast
      by_cases hx : x.cmp r = .eq
      · rw [if_pos hx] at hlast
        injection hlast with he
        subst he
        rw [buildAux_lookup_none haux]
        exact lookupOrd_insert_eq hx
      · rw [if_neg hx] at hlast
        cases hlast
    · rw [haux] at hlast
      injection hlast with he
      subst he
      exact ih haux

/-- The core fact about the deduplicating collection: for every Ord-equality
class, the built map holds exactly the class's last input pair — the last
occurrence's record as the retained key and the last occurrence's 0-based
position as the stored index. -/
theorem build_lookup (rs : List RoaPrefixRange) (r : RoaPrefixRange) :
    lookupOrd r (RoaPrefixRanges.build rs) = lastOrdEntry rs r := by
  rcases h : lastOrdEntry rs r with _ | e
  · rw [RoaPrefixRanges.build, buildAux_lookup_none h]
    rfl
  · rw [RoaPrefixRanges.build, buildAux_lookup_some h]

theorem lastOrdEntryAux_none_of {r : RoaPrefixRange} {rs : List RoaPrefixRange}
    (h : ∀ y ∈ rs, y.cmp r ≠ .eq) : ∀ i, lastOrdEntryAux r rs i = none := by
  induction rs with
  | nil =>
    intro i
    rfl
  | cons x rest ih =>
    intro i
    rw [lastOrdEntryAux, ih (fun y hy => h y (List.mem_cons_of_mem _ hy)),
      if_neg (h x (List.mem_cons_self _ _))]

theorem lastOrdEntryAux_of_last {r : RoaPrefixRange} {rs : List RoaPrefixRange}
    {j : Nat} (hj : j < rs.length) (hcls : rs[j].cmp r = .eq)
    (hlast : ∀ m, j < m → (hm : m < rs.length) → rs[m].cmp r ≠ .eq) :
    ∀ i, lastOrdEntryAux r rs i = some (rs[j], i + j) := by
  induction rs generalizing j with
  | nil => cases hj
  | cons x rest ih =>
    intro i
    rw [lastOrdEntryAux]
    cases j with
    | zero =>
      have hrest : ∀ y ∈ rest, y.cmp r ≠ .eq := by
        intro y hy
        rcases List.getElem_of_mem hy with ⟨m, hm, hym⟩
        have := hlast (m + 1) (Nat.succ_pos m) (by simpa using hm)
        simpa [hym] using this
      rw [lastOrdEntryAux_none_of hrest, if_pos (by simpa using hcls)]
      simp
    | succ j' =>
      have hj' : j' < rest.length := by
        rw [List.length_cons] at hj
        omega
      have hcls' : rest[j'].cmp r = .eq := by simpa using hcls
      have hlast' : ∀ m, j' < m → (hm : m < rest.length) → rest[m].cmp r ≠ .eq := by
        intro m hjm hm
        have := hlast (m + 1) (by omega) (by simpa using hm)
        simpa using this
      rw [ih hj' hcls' hlast' (i + 1)]
      simp only [List.getElem_cons_succ, Option.some.injEq, Prod.mk.injEq]
      exact ⟨trivial, by omega⟩

/-- Little-endian digits of `n` in base `b`, computed with explicit fuel so
that the definition is structural (kernel-reducible). -/
def digitsAux (b : Nat) : Nat → Nat → List Nat
  | 0, _ => []
  | fuel + 1, n => if n = 0 then [] else n % b :: digitsAux b fuel (n / b)

/-- Little-endian digits of `n` in base `b`. -/
def digitsLE (b n : Nat) : List Nat :=
  digitsAux b n n

theorem digitsAux_eq_digits {b : Nat} (hb : 1 < b) :
    ∀ fuel n, n ≤ fuel → digitsAux b fuel n = Nat.digits b n := by
  intro fuel
  induction fuel with
  | zero =>
    intro n hn
    interval_cases n
    simp [digitsAux]
  | succ f ih =>
    intro n hn
    by_cases h0 : n = 0
    · simp [digitsAux, h0]
    · rw [digitsAux, if_neg h0, Nat.digits_def' hb (Nat.pos_of_ne_zero h0), ih]
      have := Nat.div_lt_self (Nat.pos_of_ne_zero h0) hb
      omega

theorem digitsLE_eq_digits {b : Nat} (hb : 1 < b) (n : Nat) :
    digitsLE b n = Nat.digits b n :=
  digitsAux_eq_digits hb n n (Nat.le_refl n)

/-- Character for the digit value `d` (decimal for `d < 10`, lowercase hex
letters beyond). -/
def hexChar (d : Nat) : Char :=
  if d < 10 then Char.ofNat (48 + d) else Char.ofNat (87 + d)

/-- Decimal rendering of a natural (the `Display` output of the numeric
pieces: prefix length and max-length). -/
def natToChars (n : Nat) : List Char :=
  if n = 0 then ['0'] else ((digitsLE 10 n).reverse).map hexChar

/-- Lowercase hexadecimal rendering of a 16-bit group. -/
def hexToChars (n : Nat) : List Char :=
  if n = 0 then ['0'] else ((digitsLE 16 n).reverse).map hexChar

/-- Decimal digit value of a character, if any. -/
def decDigit (c : Char) : Option Nat :=
  if '0' ≤ c ∧ c ≤ '9' then some (c.toNat - 48) else none

/-- Hexadecimal digit value of a character, if any (either case accepted). -/
def hexDigit (c : Char) : Option Nat :=
  if '0' ≤ c ∧ c ≤ '9' then some (c.toNat - 48)
  else if 'a' ≤ c ∧ c ≤ 'f' then some (c.toNat - 87)
  else if 'A' ≤ c ∧ c ≤ 'F' then some (c.toNat - 55)
  else none

/-- Accumulate digit characters left to right in base `b`. -/
def parseNatCore (b : Nat) (digit : Char → Option Nat) (cs : List Char) : Option Nat :=
  cs.foldl (fun acc c => acc.bind (fun a => (digit c).map (fun d => a * b + d))) (some 0)

/-- Parse a non-empty all-decimal string as a natural number (the model of
`str::parse::<u8>` on the numeric fields; the int parser's optional sign
is not modelled — the grammar here never produces one). -/
def parseNat (cs : List Char) : Option Nat :=
  if cs.isEmpty then none else parseNatCore 10 decDigit cs

/-- Parse a hexadecimal group of an IPv6 address: 1 to 4 hex digits. -/
def parseHexGroup (cs : List Char) : Option Nat :=
  if cs.isEmpty || decide (4 < cs.length) then none else parseNatCore 16 hexDigit cs

theorem parseNatCore_accum (b : Nat) (digit : Char → Option Nat) (es : List Nat)
    (hes : ∀ d ∈ es, digit (hexChar d) = some d) (a : Nat) :
    (es.map hexChar).foldl
      (fun acc c => acc.bind (fun x => (digit c).map (fun d => x * b + d))) (some a) =
      some (es.foldl (fun x d => x * b + d) a) := by
  induction es generalizing a with
  | nil => rfl
  | cons d es ih =>
    simp only [List.map_cons, List.foldl_cons, Option.bind_some,
      hes d (List.mem_cons_self d es), Option.map_some]
    exact ih (fun e he => hes e (List.mem_cons_of_mem d he)) (a * b + d)

theorem foldl_eq_ofDigits (b : Nat) (es : List Nat) (a : Nat) :
    es.foldl (fun x d => x * b + d) a = a * b ^ es.length + Nat.ofDigits b es.reverse := by
  induction es generalizing a with
  | nil => simp [Nat.ofDigits]
  | cons d es ih =>
    simp only [List.foldl_cons, List.reverse_cons, List.length_cons, ih,
      Nat.ofDigits_append]
    simp [Nat.ofDigits]
    ring

theorem decDigit_hexChar {d : Nat} (hd : d < 10) : decDigit (hexChar d) = some d := by
  interval_cases d <;> decide

theorem hexDigit_hexChar {d : Nat} (hd : d < 16) : hexDigit (hexChar d) = some d := by
  interval_cases d <;> decide

theorem parseNat_natToChars (n : Nat) : parseNat (natToChars n) = some n := by
  by_cases h0 : n = 0
  · subst h0
    decide
  · have hne : Nat.digits 10 n ≠ [] := Nat.digits_ne_nil_iff_ne_zero.mpr h0
    rw [natToChars, if_neg h0, digitsLE_eq_digits (by norm_num)]
    have hmapne : ((Nat.digits 10 n).reverse).map hexChar ≠ [] := by
      simp [hne]
    rw [parseNat, if_neg (by simpa [List.isEmpty_iff] using hmapne), parseNatCore,
      parseNatCore_accum 10 decDigit _
        (fun d hd => decDigit_hexChar
          (Nat.digits_lt_base (by norm_num) (List.mem_reverse.mp hd))),
      foldl_eq_ofDigits]
    simp [Nat.ofDigits_digits]

theorem parseHexGroup_hexToChars {n : Nat} (hn : n < 65536) :
    parseHexGroup (hexToChars n) = some n := by
  by_cases h0 : n = 0
  · subst h0
    decide
  · have hne : Nat.digits 16 n ≠ [] := Nat.digits_ne_nil_iff_ne_zero.mpr h0
    have hlen : (Nat.digits 16 n).length ≤ 4 := by
      rw [Nat.digits_len 16 n (by norm_num) h0]
      have : Nat.log 16 n < 4 := Nat.log_lt_of_lt_pow h0 hn
      omega
    rw [hexToChars, if_neg h0, digitsLE_eq_digits (by norm_num)]
    have hmapne : ((Nat.digits 16 n).reverse).map hexChar ≠ [] := by
      simp [hne]
    rw [parseHexGroup, if_neg (by
      simp only [Bool.or_eq_true, decide_eq_true_eq]
      push_neg
      constructor
      · simpa [List.isEmpty_iff] using hmapne
      · simpa using hlen), parseNatCore,
      parseNatCore_accum 16 hexDigit _
        (fun d hd => hexDigit_hexChar
          (Nat.digits_lt_base (by norm_num) (List.mem_reverse.mp hd))),
      foldl_eq_ofDigits]
    simp [Nat.ofDigits_digits]

/-- `str::split_once`: split at the first occurrence of `c`, if any. -/
def splitOnce (c : Char) : List Char → Option (List Char × List Char)
  | [] => none
  | x :: xs =>
    if x = c then some ([], xs)
    else (splitOnce c xs).map (fun p => (x :: p.1, p.2))

/-- Prepend a character to the first chunk of a split result. -/
def consHead (x : Char) : List (List Char) → List (List Char)
  | [] => [[x]]
  | y :: ys => (x :: y) :: ys

/-- Split at every occurrence of `c` (the shape of `str::split`). -/
def splitAllChar (c : Char) : List Char → List (List Char)
  | [] => [[]]
  | x :: xs =>
    if x = c then [] :: splitAllChar c xs
    else consHead x (splitAllChar c xs)

/-- Join chunks with a single separator character between them. -/
def joinSep (sep : Char) : List (List Char) → List Char
  | [] => []
  | [g] => g
  | g :: g' :: gs => g ++ sep :: joinSep sep (g' :: gs)

theorem splitOnce_of_not_mem {c : Char} {l : List Char} (h : c ∉ l) :
    splitOnce c l = none := by
  induction l with
  | nil => rfl
  | cons x xs ih =>
    have hx : x ≠ c := fun hx => h (hx ▸ List.mem_cons_self x xs)
    rw [splitOnce, if_neg hx, ih (fun hm => h (List.mem_cons_of_mem x hm))]
    rfl

theorem splitOnce_append {c : Char} {a b : List Char} (h : c ∉ a) :
    splitOnce c (a ++ c :: b) = some (a, b) := by
  induction a with
  | nil => simp [splitOnce]
  | cons x xs ih =>
    have hx : x ≠ c := fun hx => h (hx ▸ List.mem_cons_self x xs)
    rw [List.cons_append, splitOnce, if_neg hx,
      ih (fun hm => h (List.mem_cons_of_mem x hm))]
    rfl

theorem splitOnce_eq_some {c : Char} {l a b : List Char}
    (h : splitOnce c l = some (a, b)) : l = a ++ c :: b ∧ c ∉ a := by
  induction l generalizing a with
  | nil => cases h
  | cons x xs ih =>
    rw [splitOnce] at h
    by_cases hx : x = c
    · rw [if_pos hx] at h
      injection h with h'
      injection h' with h₁ h₂
      subst h₁
      subst h₂
      simp [hx]
    · rw [if_neg hx] at h
      rcases hs : splitOnce c xs with _ | ⟨p, q⟩
      · rw [hs] at h
        cases h
      · rw [hs] at h
        simp only [Option.map_some'] at h
        injection h with h'
        injection h' with h₁ h₂
        subst h₂
        obtain ⟨hl, hni⟩ := ih hs
        subst hl
        constructor
        · rw [← h₁]
          rfl
        · rw [← h₁]
          intro hm
          rcases List.mem_cons.mp hm with hm | hm
          · exact hx hm.symm
          · exact hni hm

theorem splitAllChar_ne_nil {c : Char} {l : List Char} : splitAllChar c l ≠ [] := by
  cases l with
  | nil =>
    rw [splitAllChar]
    simp
  | cons x xs =>
    rw [splitAllChar]
    by_cases hx : x = c
    · rw [if_pos hx]
      simp
    · rw [if_neg hx]
      rcases h : splitAllChar c xs with _ | ⟨y, ys⟩ <;> simp [consHead]

theorem splitAll_of_not_mem {c : Char} {l : List Char} (h : c ∉ l) :
    splitAllChar c l = [l] := by
  induction l with
  | nil => rfl
  | cons x xs ih =>
    have hx : x ≠ c := fun hx => h (hx ▸ List.mem_cons_self x xs)
    rw [splitAllChar, if_neg hx, ih (fun hm => h (List.mem_cons_of_mem x hm)), consHead]

theorem splitAll_append {c : Char} {a t : List Char} (h : c ∉ a) :
    splitAllChar c (a ++ c :: t) = a :: splitAllChar c t := by
  induction a with
  | nil =>
    rw [List.nil_append, splitAllChar, if_pos rfl]
  | cons x xs ih =>
    have hx : x ≠ c := fun hx => h (hx ▸ List.mem_cons_self x xs)
    rw [List.cons_append, splitAllChar, if_neg hx,
      ih (fun hm => h (List.mem_cons_of_mem x hm)), consHead]

theorem splitAll_mem {c x : Char} {l : List Char} (hm : x ∈ l) (hx : x ≠ c) :
    ∃ g ∈ splitAllChar c l, x ∈ g := by
  induction l with
  | nil => cases hm
  | cons y ys ih =>
    rw [splitAllChar]
    by_cases hy : y = c
    · rw [if_pos hy]
      rcases List.mem_cons.mp hm with rfl | hm'
      · exact absurd hy hx
      · rcases ih hm' with ⟨g, hg, hxg⟩
        exact ⟨g, List.mem_cons_of_mem _ hg, hxg⟩
    · rw [if_neg hy]
      rcases hs : splitAllChar c ys with _ | ⟨z, zs⟩
      · exact absurd hs splitAllChar_ne_nil
      · rw [consHead]
        rcases List.mem_cons.mp hm with rfl | hm'
        · exact ⟨x :: z, List.mem_cons_self _ _, List.mem_cons_self _ _⟩
        · rcases ih hm' with ⟨g, hg, hxg⟩
          rw [hs] at hg
          rcases List.mem_cons.mp hg with rfl | hg'
          · exact ⟨y :: g, List.mem_cons_self _ _, List.mem_cons_of_mem _ hxg⟩
          · exact ⟨g, List.mem_cons_of_mem _ hg', hxg⟩

theorem splitAll_joinSep {c : Char} {chunks : List (List Char)}
    (hc : ∀ g ∈ chunks, c ∉ g) (hne : chunks ≠ []) :
    splitAllChar c (joinSep c chunks) = chunks := by
  induction chunks with
  | nil => exact absurd rfl hne
  | cons g gs ih =>
    cases gs with
    | nil =>
      rw [joinSep, splitAll_of_not_mem (hc g (List.mem_cons_self g []))]
    | cons g' gs' =>
      rw [joinSep, splitAll_append (hc g (List.mem_cons_self _ _)),
        ih (fun x hx => hc x (List.mem_cons_of_mem _ hx)) (by simp)]

theorem mem_joinSep {c x : Char} {chunks : List (List Char)}
    (h : x ∈ joinSep c chunks) : x = c ∨ ∃ g ∈ chunks, x ∈ g := by
  induction chunks with
  | nil => cases h
  | cons g gs ih =>
    cases gs with
    | nil =>
      right
      exact ⟨g, List.mem_cons_self _ _, h⟩
    | cons g' gs' =>
      rw [joinSep] at h
      rcases List.mem_append.mp h with hg | ht
      · right
        exact ⟨g, List.mem_cons_self _ _, hg⟩
      · rcases List.mem_cons.mp ht with rfl | ht'
        · exact .inl rfl
        · rcases ih ht' with rfl | ⟨g₀, hg₀, hxg₀⟩
          · exact .inl rfl
          · exact .inr ⟨g₀, List.mem_cons_of_mem _ hg₀, hxg₀⟩

theorem mapM_eq_some {α β : Type} {f : α → Option β} {g : α → β} {l : List α}
    (h : ∀ x ∈ l, f x = some (g x)) : l.mapM f = some (l.map g) := by
  induction l with
  | nil => rfl
  | cons x xs ih =>
    rw [List.mapM_cons, h x (List.mem_cons_self x xs),
      ih (fun y hy => h y (List.mem_cons_of_mem x hy))]
    rfl

theorem mapM_eq_none {α β : Type} {f : α → Option β} {l : List α} {x : α}
    (hm : x ∈ l) (hx : f x = none) : l.mapM f = none := by
  induction l with
  | nil => cases hm
  | cons y ys ih =>
    rw [List.mapM_cons]
    rcases List.mem_cons.mp hm with rfl | hm'
    · rw [hx]
      rfl
    · rcases hy : f y with _ | v
      · rfl
      · rw [ih hm']
        rfl

/-- Big-endian base-`B` groups of `n`, `k` of them (the byte/16-bit-group
decomposition the address formatters work from). -/
def groupsBE (B : Nat) : Nat → Nat → List Nat
  | 0, _ => []
  | k + 1, n => groupsBE B k (n / B) ++ [n % B]

theorem length_groupsBE (B k n : Nat) : (groupsBE B k n).length = k := by
  induction k generalizing n with
  | zero => rfl
  | succ k ih => simp [groupsBE, ih]

theorem groupsBE_lt {B k n : Nat} (hB : 0 < B) :
    ∀ g ∈ groupsBE B k n, g < B := by
  induction k generalizing n with
  | zero => simp [groupsBE]
  | succ k ih =>
    intro g hg
    rw [groupsBE] at hg
    rcases List.mem_append.mp hg with hg' | hg'
    · exact ih _ hg'
    · rcases List.mem_cons.mp hg' with rfl | h'
      · exact Nat.mod_lt _ hB
      · cases h'

theorem foldl_groupsBE {B : Nat} (hB : 0 < B) :
    ∀ (k n a : Nat), n < B ^ k →
      (groupsBE B k n).foldl (fun x g => x * B + g) a = a * B ^ k + n := by
  intro k
  induction k with
  | zero =>
    intro n a hn
    rw [pow_zero] at hn
    have hn0 : n = 0 := by omega
    subst hn0
    simp [groupsBE]
  | succ k ih =>
    intro n a hn
    have hdiv : n / B < B ^ k := by
      rw [Nat.div_lt_iff_lt_mul hB]
      calc n < B ^ (k + 1) := hn
        _ = B ^ k * B := by rw [pow_succ]
    rw [groupsBE, List.foldl_append, ih (n / B) a hdiv]
    have hmod : n / B * B + n % B = n := Nat.div_add_mod' n B
    calc (a * B ^ k + n / B) * B + n % B
        = a * (B ^ k * B) + (n / B * B + n % B) := by ring
      _ = a * B ^ (k + 1) + n := by rw [hmod, pow_succ]

/-- The four octets of an IPv4 address, most significant first. -/
def v4Groups (a : Nat) : List Nat :=
  groupsBE 256 4 a

/-- Dotted-quad rendering of an IPv4 address (the library's `Display` for
`Address<Ipv4>`, modelled from the spec's canonical textual form). -/
def v4ToChars (a : Nat) : List Char :=
  joinSep '.' ((v4Groups a).map natToChars)

/-- Parse a decimal octet in `0..=255`. -/
def parseOctet (g : List Char) : Option Nat :=
  (parseNat g).bind (fun n => if n < 256 then some n else none)

/-- Parse a dotted-quad IPv4 address (the library's `FromStr` for
`Address<Ipv4>`, modelled from the spec: four decimal octets). -/
def parseV4addr (cs : List Char) : Option Nat :=
  ((splitAllChar '.' cs).mapM parseOctet).bind
    (fun os => if os.length = 4 then some (os.foldl (fun x g => x * 256 + g) 0) else none)

theorem mapM_map_eq_some {α β γ : Type} {f : β → Option γ} {h : α → β} {g : α → γ}
    {l : List α} (hx : ∀ x ∈ l, f (h x) = some (g x)) :
    (l.map h).mapM f = some (l.map g) := by
  induction l with
  | nil => rfl
  | cons x xs ih =>
    rw [List.map_cons, List.mapM_cons, hx x (List.mem_cons_self x xs),
      ih (fun y hy => hx y (List.mem_cons_of_mem x hy)), List.map_cons]
    rfl

theorem natToChars_ne_nil (n : Nat) : natToChars n ≠ [] := by
  by_cases h0 : n = 0
  · simp [natToChars, h0]
  · have hne : Nat.digits 10 n ≠ [] := Nat.digits_ne_nil_iff_ne_zero.mpr h0
    simp [natToChars, h0, digitsLE_eq_digits (by norm_num : (1:Nat) < 10), hne]

theorem hexToChars_ne_nil (n : Nat) : hexToChars n ≠ [] := by
  by_cases h0 : n = 0
  · simp [hexToChars, h0]
  · have hne : Nat.digits 16 n ≠ [] := Nat.digits_ne_nil_iff_ne_zero.mpr h0
    simp [hexToChars, h0, digitsLE_eq_digits (by norm_num : (1:Nat) < 16), hne]

theorem natToChars_mem {c : Char} {n : Nat} (h : c ∈ natToChars n) :
    ∃ d, d < 10 ∧ c = hexChar d := by
  by_cases h0 : n = 0
  · rw [natToChars, if_pos h0] at h
    rcases List.mem_cons.mp h with rfl | h'
    · exact ⟨0, by norm_num, rfl⟩
    · cases h'
  · rw [natToChars, if_neg h0, digitsLE_eq_digits (by norm_num : (1:Nat) < 10)] at h
    rcases List.mem_map.mp h with ⟨d, hd, rfl⟩
    exact ⟨d, Nat.digits_lt_base (by norm_num) (List.mem_reverse.mp hd), rfl⟩

theorem hexToChars_mem {c : Char} {n : Nat} (h : c ∈ hexToChars n) :
    ∃ d, d < 16 ∧ c = hexChar d := by
  by_cases h0 : n = 0
  · rw [hexToChars, if_pos h0] at h
    rcases List.mem_cons.mp h with rfl | h'
    · exact ⟨0, by norm_num, rfl⟩
    · cases h'
  · rw [hexToChars, if_neg h0, digitsLE_eq_digits (by norm_num : (1:Nat) < 16)] at h
    rcases List.mem_map.mp h with ⟨d, hd, rfl⟩
    exact ⟨d, Nat.digits_lt_base (by norm_num) (List.mem_reverse.mp hd), rfl⟩

theorem hexChar_classes :
    ∀ d, d < 16 → hexChar d ≠ '.' ∧ hexChar d ≠ ':' ∧ hexChar d ≠ '/' ∧ hexChar d ≠ '-' := by
  decide

theorem parseOctet_natToChars {n : Nat} (hn : n < 256) :
    parseOctet (natToChars n) = some n := by
  rw [parseOctet, parseNat_natToChars]
  simp [hn]

theorem parseV4addr_v4ToChars {a : Nat} (ha : a < 2 ^ 32) :
    parseV4addr (v4ToChars a) = some a := by
  have hlen : (v4Groups a).length = 4 := length_groupsBE 256 4 a
  have hlt : ∀ g ∈ v4Groups a, g < 256 := groupsBE_lt (by norm_num)
  have hnodot : ∀ g ∈ (v4Groups a).map natToChars, '.' ∉ g := by
    intro g hg hdot
    rcases List.mem_map.mp hg with ⟨o, _, rfl⟩
    rcases natToChars_mem hdot with ⟨d, hd, hdc⟩
    exact (hexChar_classes d (by omega)).1 hdc.symm
  have hchunksne : (v4Groups a).map natToChars ≠ [] := by
    intro h
    rw [List.map_eq_nil_iff] at h
    rw [h] at hlen
    cases hlen
  have hmm := @mapM_map_eq_some Nat (List Char) Nat parseOctet natToChars id
    (v4Groups a) (fun o ho => parseOctet_natToChars (hlt o ho))
  rw [parseV4addr, v4ToChars, splitAll_joinSep hnodot hchunksne, hmm, List.map_id]
  have hfold := @foldl_groupsBE 256 (by norm_num) 4 a 0 (by
    norm_num at ha ⊢
    exact ha)
  simp [v4Groups, hfold, length_groupsBE]

/-- The eight 16-bit groups of an IPv6 address, most significant first. -/
def v6Groups (a : Nat) : List Nat :=
  groupsBE 65536 8 a

/-- Number of leading zero groups. -/
def countZeros : List Nat → Nat
  | [] => 0
  | g :: gs => if g = 0 then countZeros gs + 1 else 0

/-- Leftmost longest run of zero groups: start position and length. -/
def bestRun (gs : List Nat) : Nat × Nat :=
  (List.range gs.length).foldl
    (fun best s =>
      if best.2 < countZeros (gs.drop s) then (s, countZeros (gs.drop s)) else best)
    (0, 0)

/-- RFC-5952-style rendering of an IPv6 address (the library's `Display` for
`Address<Ipv6>`, modelled from the spec's canonical textual form): lowercase
hex groups joined by `:`, with the leftmost longest run of at least two zero
groups compressed to `::`. -/
def v6ToChars (a : Nat) : List Char :=
  if 2 ≤ (bestRun (v6Groups a)).2 then
    joinSep ':' (((v6Groups a).take (bestRun (v6Groups a)).1).map hexToChars) ++
      ':' :: ':' ::
        joinSep ':'
          (((v6Groups a).drop
            ((bestRun (v6Groups a)).1 + (bestRun (v6Groups a)).2)).map hexToChars)
  else joinSep ':' ((v6Groups a).map hexToChars)

/-- Split at the first occurrence of `::`, if any. -/
def splitDC : List Char → Option (List Char × List Char)
  | [] => none
  | [_] => none
  | x :: y :: rest =>
    if x = ':' ∧ y = ':' then some ([], rest)
    else (splitDC (y :: rest)).map (fun p => (x :: p.1, p.2))

/-- No two adjacent colons and no trailing colon. -/
def wfColons : List Char → Bool
  | [] => true
  | [x] => x != ':'
  | x :: y :: rest => !(x == ':' && y == ':') && wfColons (y :: rest)

/-- Parse a (possibly empty) `:`-separated sequence of hex groups. -/
def parseGroups (cs : List Char) : Option (List Nat) :=
  if cs.isEmpty then some [] else (splitAllChar ':' cs).mapM parseHexGroup

/-- Recombine 16-bit groups, most significant first. -/
def assembleV6 (gs : List Nat) : Nat :=
  gs.foldl (fun x g => x * 65536 + g) 0

/-- Parse an IPv6 address literal (the library's `FromStr` for
`Address<Ipv6>`, modelled from the spec: full eight-group form, or two group
sequences joined by `::` standing for the omitted zero groups). -/
def parseV6addr (cs : List Char) : Option Nat :=
  (splitDC cs).elim
    (((splitAllChar ':' cs).mapM parseHexGroup).bind fun gs =>
      if gs.length = 8 then some (assembleV6 gs) else none)
    (fun p =>
      (parseGroups p.1).bind fun lg =>
        (parseGroups p.2).bind fun rg =>
          if lg.length + rg.length ≤ 7 then
            some (assembleV6 (lg ++ List.replicate (8 - lg.length - rg.length) 0 ++ rg))
          else none)

theorem countZeros_le (l : List Nat) : countZeros l ≤ l.length := by
  induction l with
  | nil => exact Nat.le_refl 0
  | cons g gs ih =>
    rw [countZeros]
    by_cases hg : g = 0
    · rw [if_pos hg]
      simpa using ih
    · rw [if_neg hg]
      exact Nat.zero_le _

theorem countZeros_take (l : List Nat) :
    l.take (countZeros l) = List.replicate (countZeros l) 0 := by
  induction l with
  | nil => rfl
  | cons g gs ih =>
    rw [countZeros]
    by_cases hg : g = 0
    · rw [if_pos hg, List.take_succ_cons, ih, hg, List.replicate_succ]
    · rw [if_neg hg]
      rfl

theorem bestRun_spec (gs : List Nat) :
    bestRun gs = (0, 0) ∨
      ((bestRun gs).1 < gs.length ∧
        (bestRun gs).2 = countZeros (gs.drop (bestRun gs).1)) := by
  have hstep : ∀ (b : Nat × Nat),
      (b = (0, 0) ∨ (b.1 < gs.length ∧ b.2 = countZeros (gs.drop b.1))) →
      ∀ s ∈ List.range gs.length,
        ((if b.2 < countZeros (gs.drop s) then (s, countZeros (gs.drop s)) else b) =
            (0, 0) ∨
          ((if b.2 < countZeros (gs.drop s) then (s, countZeros (gs.drop s)) else b).1 <
              gs.length ∧
            (if b.2 < countZeros (gs.drop s) then (s, countZeros (gs.drop s)) else b).2 =
              countZeros (gs.drop
                (if b.2 < countZeros (gs.drop s) then (s, countZeros (gs.drop s))
                  else b).1))) := by
    intro b hb s hs
    by_cases hlt : b.2 < countZeros (gs.drop s)
    · rw [if_pos hlt]
      exact .inr ⟨List.mem_range.mp hs, rfl⟩
    · rw [if_neg hlt]
      exact hb
  rw [bestRun]
  exact @List.foldlRecOn (Nat × Nat) Nat
    (fun p => p = (0, 0) ∨ (p.1 < gs.length ∧ p.2 = countZeros (gs.drop p.1)))
    (List.range gs.length)
    (fun best s =>
      if best.2 < countZeros (gs.drop s) then (s, countZeros (gs.drop s)) else best)
    (0, 0) (Or.inl rfl) hstep

theorem zero_run_decomp {gs : List Nat} {s L : Nat}
    (hL : L = countZeros (gs.drop s)) :
    gs.take s ++ List.replicate L 0 ++ gs.drop (s + L) = gs := by
  have h2 : gs.drop s = List.replicate L 0 ++ gs.drop (s + L) := by
    conv_lhs => rw [← List.take_append_drop L (gs.drop s)]
    rw [List.drop_drop, hL, countZeros_take]
  conv_rhs => rw [← List.take_append_drop s gs]
  rw [h2, List.append_assoc]

theorem wf_no_colon {l : List Char} (h : ∀ c ∈ l, c ≠ ':') :
    wfColons l = true := by
  induction l with
  | nil => rfl
  | cons x xs ih =>
    cases xs with
    | nil =>
      rw [wfColons]
      simpa using h x (List.mem_cons_self _ _)
    | cons y ys =>
      rw [wfColons, Bool.and_eq_true]
      constructor
      · have hx : x ≠ ':' := h x (List.mem_cons_self _ _)
        simp [hx]
      · exact ih (fun c hc => h c (List.mem_cons_of_mem _ hc))

theorem wf_append {g t : List Char} (hg : ∀ c ∈ g, c ≠ ':')
    (ht : wfColons t = true) : wfColons (g ++ t) = true := by
  induction g with
  | nil => exact ht
  | cons x xs ih =>
    have hx : x ≠ ':' := hg x (List.mem_cons_self _ _)
    have htail := ih (fun c hc => hg c (List.mem_cons_of_mem _ hc))
    rw [List.cons_append]
    rcases hxt : xs ++ t with _ | ⟨y, r⟩
    · rw [wfColons]
      simp [hx]
    · rw [wfColons, Bool.and_eq_true]
      constructor
      · simp [hx]
      · rw [← hxt]
        exact htail

theorem joinSep_cons_structure {sep : Char} {y : Char} {ys : List Char}
    (rest : List (List Char)) :
    ∃ t, joinSep sep ((y :: ys) :: rest) = y :: (ys ++ t) := by
  cases rest with
  | nil => exact ⟨[], by simp [joinSep]⟩
  | cons g' gs' => exact ⟨sep :: joinSep sep (g' :: gs'), by simp [joinSep]⟩

theorem joinSep_wf {chunks : List (List Char)}
    (h : ∀ ch ∈ chunks, ch ≠ [] ∧ ∀ c ∈ ch, c ≠ ':') :
    wfColons (joinSep ':' chunks) = true := by
  induction chunks with
  | nil => rfl
  | cons g gs ih =>
    cases gs with
    | nil =>
      rw [joinSep]
      exact wf_no_colon (h g (List.mem_cons_self _ _)).2
    | cons g' gs' =>
      rw [joinSep]
      refine wf_append (h g (List.mem_cons_self _ _)).2 ?_
      obtain ⟨hne, hnc⟩ := h g' (List.mem_cons_of_mem _ (List.mem_cons_self _ _))
      have hwf : wfColons (joinSep ':' (g' :: gs')) = true :=
        ih (fun ch hch => h ch (List.mem_cons_of_mem _ hch))
      rcases hg' : g' with _ | ⟨y, ys⟩
      · exact absurd hg' hne
      · subst hg'
        obtain ⟨t, hjs⟩ := @joinSep_cons_structure ':' y ys gs'
        have hy : y ≠ ':' := hnc y (List.mem_cons_self _ _)
        rw [hjs] at hwf
        rw [hjs, wfColons, Bool.and_eq_true]
        constructor
        · simp [hy]
        · exact hwf

theorem splitDC_of_wf {l : List Char} (h : wfColons l = true) :
    splitDC l = none := by
  induction l with
  | nil => rfl
  | cons x xs ih =>
    cases xs with
    | nil => rfl
    | cons y r =>
      rw [wfColons, Bool.and_eq_true] at h
      obtain ⟨hxy, htail⟩ := h
      have hnxy : ¬(x = ':' ∧ y = ':') := by
        intro hc
        simp [hc.1, hc.2] at hxy
      rw [splitDC, if_neg hnxy, ih htail]
      rfl

theorem splitDC_junction {g post : List Char} (h : wfColons g = true) :
    splitDC (g ++ ':' :: ':' :: post) = some (g, post) := by
  induction g with
  | nil =>
    rw [List.nil_append, splitDC, if_pos ⟨rfl, rfl⟩]
  | cons x xs ih =>
    cases xs with
    | nil =>
      rw [wfColons] at h
      have hx : x ≠ ':' := by simpa using h
      rw [List.cons_append, List.nil_append, splitDC,
        if_neg (fun hc => hx hc.1), splitDC, if_pos ⟨rfl, rfl⟩]
      rfl
    | cons y ys =>
      rw [wfColons, Bool.and_eq_true] at h
      obtain ⟨hxy, htail⟩ := h
      have hnxy : ¬(x = ':' ∧ y = ':') := by
        intro hc
        simp [hc.1, hc.2] at hxy
      rw [List.cons_append]
      rw [show (y :: ys) ++ ':' :: ':' :: post = y :: (ys ++ ':' :: ':' :: post) from rfl]
      rw [splitDC, if_neg hnxy]
      have := ih htail
      rw [List.cons_append] at this
      rw [this]
      rfl

theorem joinSep_ne_nil {sep : Char} {chunks : List (List Char)}
    (hne : chunks ≠ []) (hch : ∀ ch ∈ chunks, ch ≠ []) :
    joinSep sep chunks ≠ [] := by
  cases chunks with
  | nil => exact absurd rfl hne
  | cons g gs =>
    cases gs with
    | nil => exact hch g (List.mem_cons_self _ _)
    | cons g' gs' =>
      rw [joinSep]
      intro hcontra
      rcases List.append_eq_nil.mp hcontra with ⟨_, h2⟩
      cases h2

theorem parseGroups_joinSep {os : List Nat} (hos : ∀ o ∈ os, o < 65536) :
    parseGroups (joinSep ':' (os.map hexToChars)) = some os := by
  cases hos' : os with
  | nil => rfl
  | cons o os' =>
    rw [← hos']
    have hchne : ∀ ch ∈ os.map hexToChars, ch ≠ [] := by
      intro ch hch
      rcases List.mem_map.mp hch with ⟨o₀, _, rfl⟩
      exact hexToChars_ne_nil o₀
    have hnc : ∀ ch ∈ os.map hexToChars, ':' ∉ ch := by
      intro ch hch hc
      rcases List.mem_map.mp hch with ⟨o₀, _, rfl⟩
      rcases hexToChars_mem hc with ⟨d, hd, hdc⟩
      exact (hexChar_classes d hd).2.1 hdc.symm
    have hjne : joinSep ':' (os.map hexToChars) ≠ [] :=
      joinSep_ne_nil (by simp [hos']) hchne
    rw [parseGroups, if_neg (by simpa [List.isEmpty_iff] using hjne),
      splitAll_joinSep hnc (by simp [hos'])]
    have hmm := @mapM_map_eq_some Nat (List Char) Nat parseHexGroup hexToChars id
      os (fun o ho => parseHexGroup_hexToChars (hos o ho))
    rw [hmm, List.map_id]

theorem parseV6addr_v6ToChars {a : Nat} (ha : a < 2 ^ 128) :
    parseV6addr (v6ToChars a) = some a := by
  have hlen : (v6Groups a).length = 8 := length_groupsBE 65536 8 a
  have hlt : ∀ g ∈ v6Groups a, g < 65536 := groupsBE_lt (by norm_num)
  have hassemble : assembleV6 (v6Groups a) = a := by
    have hfold := @foldl_groupsBE 65536 (by norm_num) 8 a 0 (by
      norm_num at ha ⊢
      exact ha)
    simpa [assembleV6, v6Groups] using hfold
  have hchunkprops : ∀ (sub : List Nat), ∀ ch ∈ sub.map hexToChars,
      ch ≠ [] ∧ ∀ c ∈ ch, c ≠ ':' := by
    intro sub ch hch
    rcases List.mem_map.mp hch with ⟨o₀, _, rfl⟩
    refine ⟨hexToChars_ne_nil o₀, ?_⟩
    intro c hc
    rcases hexToChars_mem hc with ⟨d, hd, hdc⟩
    intro hcontra
    exact (hexChar_classes d hd).2.1 (hcontra ▸ hdc).symm
  by_cases hcomp : 2 ≤ (bestRun (v6Groups a)).2
  · obtain ⟨hs, hL⟩ : (bestRun (v6Groups a)).1 < 8 ∧
        (bestRun (v6Groups a)).2 =
          countZeros ((v6Groups a).drop (bestRun (v6Groups a)).1) := by
      rcases bestRun_spec (v6Groups a) with hbr | ⟨hs', hL'⟩
      · rw [hbr] at hcomp
        norm_num at hcomp
      · rw [hlen] at hs'
        exact ⟨hs', hL'⟩
    have hsL : (bestRun (v6Groups a)).1 + (bestRun (v6Groups a)).2 ≤ 8 := by
      have h1 := countZeros_le ((v6Groups a).drop (bestRun (v6Groups a)).1)
      rw [List.length_drop, hlen] at h1
      omega
    have hfmt : v6ToChars a =
        joinSep ':' (((v6Groups a).take (bestRun (v6Groups a)).1).map hexToChars) ++
          ':' :: ':' ::
            joinSep ':'
              (((v6Groups a).drop
                ((bestRun (v6Groups a)).1 + (bestRun (v6Groups a)).2)).map hexToChars) := by
      rw [v6ToChars, if_pos hcomp]
    have hsplit : splitDC (v6ToChars a) =
        some (joinSep ':' (((v6Groups a).take (bestRun (v6Groups a)).1).map hexToChars),
          joinSep ':'
            (((v6Groups a).drop
              ((bestRun (v6Groups a)).1 + (bestRun (v6Groups a)).2)).map hexToChars)) := by
      rw [hfmt]
      exact splitDC_junction (joinSep_wf (hchunkprops _))
    rw [parseV6addr, hsplit]
    simp only [Option.elim_some]
    rw [parseGroups_joinSep (fun o ho => hlt o (List.mem_of_mem_take ho)),
      parseGroups_joinSep (fun o ho => hlt o (List.mem_of_mem_drop ho)),
      Option.some_bind, Option.some_bind]
    have hlentake : ((v6Groups a).take (bestRun (v6Groups a)).1).length =
        (bestRun (v6Groups a)).1 := by
      rw [List.length_take, hlen]
      omega
    have hlendrop : ((v6Groups a).drop
        ((bestRun (v6Groups a)).1 + (bestRun (v6Groups a)).2)).length =
        8 - ((bestRun (v6Groups a)).1 + (bestRun (v6Groups a)).2) := by
      rw [List.length_drop, hlen]
    rw [hlentake, hlendrop, if_pos (by omega)]
    have hrepl : 8 - (bestRun (v6Groups a)).1 -
        (8 - ((bestRun (v6Groups a)).1 + (bestRun (v6Groups a)).2)) =
        (bestRun (v6Groups a)).2 := by
      omega
    rw [hrepl, zero_run_decomp hL, hassemble]
  · have hgsne : (v6Groups a).map hexToChars ≠ [] := by
      intro hcontra
      rw [List.map_eq_nil_iff] at hcontra
      rw [hcontra] at hlen
      cases hlen
    have hsplit : splitDC (v6ToChars a) = none := by
      rw [v6ToChars, if_neg hcomp]
      exact splitDC_of_wf (joinSep_wf (hchunkprops _))
    have hfmt : v6ToChars a = joinSep ':' ((v6Groups a).map hexToChars) := by
      rw [v6ToChars, if_neg hcomp]
    rw [parseV6addr, hsplit]
    simp only [Option.elim_none]
    have hnc : ∀ ch ∈ (v6Groups a).map hexToChars, ':' ∉ ch := by
      intro ch hch hc
      exact (hchunkprops _ ch hch).2 ':' hc rfl
    rw [hfmt, splitAll_joinSep hnc hgsne]
    have hmm := @mapM_map_eq_some Nat (List Char) Nat parseHexGroup hexToChars id
      (v6Groups a) (fun o ho => parseHexGroup_hexToChars (hlt o ho))
    rw [hmm, List.map_id, Option.some_bind, if_pos hlen, hassemble]

/-- Zero the host bits of `a`: keep the topmost `len` of `w` bits (the
normalization the spec states for stored networks, §3). -/
def truncAddr (w len a : Nat) : Nat :=
  a / 2 ^ (w - len) * 2 ^ (w - len)

/-- Parse `ADDR/LEN` as an IPv4 or IPv6 CIDR literal with the family
auto-detected from the syntax (the library's `FromStr` for `any::Prefix`,
modelled from the spec §4.2/§3; the stored network is normalized by zeroing
host bits). -/
def parseAnyNet (cs : List Char) : Option (AfiT × IpPrefix) :=
  (splitOnce '/' cs).bind fun p =>
    (parseNat p.2).bind fun len =>
      if ':' ∈ p.1 then
        (parseV6addr p.1).bind fun a =>
          if len ≤ 128 then some (.ipv6, ⟨truncAddr 128 len a, len⟩) else none
      else
        (parseV4addr p.1).bind fun a =>
          if len ≤ 32 then some (.ipv4, ⟨truncAddr 32 len a, len⟩) else none

/-- Wrap an inner record in the family's variant. -/
def RoaPrefixRange.ofFam : AfiT → InnerRoaPrefixRange → RoaPrefixRange
  | .ipv4, i => .ipv4 i
  | .ipv6, i => .ipv6 i

/-- `FromStr for RoaPrefixRange` (`src/ir.rs` lines 145-175): split the line
at the first `-` (if any) into prefix text and max-length text; parse the
prefix with the family auto-detected; parse the max-length (when present)
as an integer within the family's prefix-length range
(`PrefixLength::from_primitive`); then apply the shared construction rule
`InnerRoaPrefixRange::new`. -/
def RoaPrefixRange.fromStr (cs : List Char) : Except RoaError RoaPrefixRange :=
  let q : List Char × Option (List Char) :=
    match splitOnce '-' cs with
    | some p => (p.1, some p.2)
    | none => (cs, none)
  match parseAnyNet q.1 with
  | none => .error .parseError
  | some fp =>
    match q.2 with
    | none => (InnerRoaPrefixRange.new fp.2 none).map (RoaPrefixRange.ofFam fp.1)
    | some lcs =>
      match parseNat lcs with
      | none => .error .parseError
      | some l =>
        if l ≤ fp.1.width then
          (InnerRoaPrefixRange.new fp.2 (some l)).map (RoaPrefixRange.ofFam fp.1)
        else .error .parseError

/-- Split at the first occurrence of `c` counted from the right-hand end. -/
def splitOnceR (c : Char) (cs : List Char) : Option (List Char × List Char) :=
  (splitOnce c cs.reverse).map (fun p => (p.2.reverse, p.1.reverse))

/-- Modelled from the spec: the Text Decoder grammar of §4.2 — the line is
split into PREFIX and MAXLEN at the first `-` counted from the right-hand
end of the line (a line with no `-` is all PREFIX); the rest of the
pipeline is the shared one. -/
def fromStrSpec (cs : List Char) : Except RoaError RoaPrefixRange :=
  let q : List Char × Option (List Char) :=
    match splitOnceR '-' cs with
    | some p => (p.1, some p.2)
    | none => (cs, none)
  match parseAnyNet q.1 with
  | none => .error .parseError
  | some fp =>
    match q.2 with
    | none => (InnerRoaPrefixRange.new fp.2 none).map (RoaPrefixRange.ofFam fp.1)
    | some lcs =>
      match parseNat lcs with
      | none => .error .parseError
      | some l =>
        if l ≤ fp.1.width then
          (InnerRoaPrefixRange.new fp.2 (some l)).map (RoaPrefixRange.ofFam fp.1)
        else .error .parseError

/-- `Display for InnerRoaPrefixRange` (`src/ir.rs` lines 103-111): the
prefix rendered as `address/length`, with a `-maxlen` suffix only for an
`Explicit` qualifier. -/
def renderInner (addrToChars : Nat → List Char) (i : InnerRoaPrefixRange) : List Char :=
  (addrToChars i.pfx.addr ++ '/' :: natToChars i.pfx.len) ++
    (match i.maxLength with
     | .explicit l => '-' :: natToChars l
     | _ => [])

/-- `Display for RoaPrefixRange` (`src/ir.rs` lines 177-184): dispatch the
inner rendering on the family. -/
def RoaPrefixRange.render : RoaPrefixRange → List Char
  | .ipv4 i => renderInner v4ToChars i
  | .ipv6 i => renderInner v6ToChars i

/-- Well-formedness of a record as the decoders produce it: address within
the family's width with host bits zero, length within the width, and an
`explicit` qualifier strictly above the length and within the width. -/
def innerValid (w : Nat) (i : InnerRoaPrefixRange) : Bool :=
  decide (i.pfx.addr < 2 ^ w) && decide (i.pfx.len ≤ w) &&
    decide (truncAddr w i.pfx.len i.pfx.addr = i.pfx.addr) &&
    (match i.maxLength with
     | .implicitEqual => true
     | .explicitEqual => true
     | .explicit l => decide (i.pfx.len < l) && decide (l ≤ w))

/-- Well-formedness of a record, per family. -/
def RoaPrefixRange.valid : RoaPrefixRange → Bool
  | .ipv4 i => innerValid 32 i
  | .ipv6 i => innerValid 128 i

/-- The record obtained by re-parsing a record's own rendering: an
`ExplicitEqual` qualifier reads back as `ImplicitEqual` (the rendering
drops the redundant suffix), everything else is unchanged. -/
def canonicalize : RoaPrefixRange → RoaPrefixRange
  | .ipv4 i =>
    .ipv4 ⟨i.pfx, match i.maxLength with
      | .explicitEqual => .implicitEqual
      | m => m⟩
  | .ipv6 i =>
    .ipv6 ⟨i.pfx, match i.maxLength with
      | .explicitEqual => .implicitEqual
      | m => m⟩

theorem canonicalize_cmp_eq (r : RoaPrefixRange) : (canonicalize r).cmp r = .eq := by
  rw [RoaPrefixRange.cmp_eq_iff_key]
  cases r with
  | ipv4 i =>
    cases hm : i.maxLength <;>
      simp [canonicalize, RoaPrefixRange.key, MaxLength.qkey, hm]
  | ipv6 i =>
    cases hm : i.maxLength <;>
      simp [canonicalize, RoaPrefixRange.key, MaxLength.qkey, hm]

theorem foldl_digit_none {b : Nat} {digit : Char → Option Nat} (cs : List Char) :
    cs.foldl (fun acc c => acc.bind (fun a => (digit c).map (fun d => a * b + d)))
      none = none := by
  induction cs with
  | nil => rfl
  | cons x xs ih => simpa using ih

theorem foldl_digit_bad {b : Nat} {digit : Char → Option Nat} {c : Char}
    (hc : digit c = none) :
    ∀ (cs : List Char), c ∈ cs → ∀ a : Nat,
      cs.foldl (fun acc ch => acc.bind (fun x => (digit ch).map (fun d => x * b + d)))
        (some a) = none := by
  intro cs
  induction cs with
  | nil =>
    intro hm
    cases hm
  | cons x xs ih =>
    intro hm a
    rw [List.foldl_cons, Option.some_bind]
    rcases List.mem_cons.mp hm with heq | hm'
    · have hx : digit x = none := heq ▸ hc
      rw [hx]
      simpa using foldl_digit_none xs
    · rcases hx : digit x with _ | d
      · simpa using foldl_digit_none xs
      · simpa using ih hm' (a * b + d)

theorem parseNatCore_bad {b : Nat} {digit : Char → Option Nat} {cs : List Char}
    {c : Char} (hm : c ∈ cs) (hc : digit c = none) :
    parseNatCore b digit cs = none := by
  rw [parseNatCore]
  exact foldl_digit_bad hc cs hm 0

theorem parseNat_bad {cs : List Char} {c : Char} (hm : c ∈ cs)
    (hc : decDigit c = none) : parseNat cs = none := by
  have hne : cs ≠ [] := List.ne_nil_of_mem hm
  rw [parseNat, if_neg (by simpa [List.isEmpty_iff] using hne)]
  exact parseNatCore_bad hm hc

theorem parseHexGroup_bad {cs : List Char} {c : Char} (hm : c ∈ cs)
    (hc : hexDigit c = none) : parseHexGroup cs = none := by
  rw [parseHexGroup]
  by_cases hcond : (cs.isEmpty || decide (4 < cs.length)) = true
  · rw [if_pos hcond]
  · rw [if_neg hcond]
    exact parseNatCore_bad hm hc

theorem splitDC_eq_some {cs l r : List Char} (h : splitDC cs = some (l, r)) :
    cs = l ++ ':' :: ':' :: r := by
  induction cs generalizing l with
  | nil => cases h
  | cons x xs ih =>
    cases xs with
    | nil => cases h
    | cons y ys =>
      rw [splitDC] at h
      by_cases hxy : x = ':' ∧ y = ':'
      · rw [if_pos hxy] at h
        injection h with h'
        injection h' with h₁ h₂
        subst h₂
        rw [← h₁, List.nil_append, hxy.1, hxy.2]
      · rw [if_neg hxy] at h
        rcases hs : splitDC (y :: ys) with _ | ⟨p, q⟩
        · rw [hs] at h
          cases h
        · rw [hs] at h
          simp only [Option.map_some'] at h
          injection h with h'
          injection h' with h₁ h₂
          subst h₂
          have := ih hs
          rw [← h₁, List.cons_append]
          rw [← this]

theorem not_mem_of_splitOnce_none {c : Char} {cs : List Char}
    (h : splitOnce c cs = none) : c ∉ cs := by
  induction cs with
  | nil => simp
  | cons x xs ih =>
    rw [splitOnce] at h
    by_cases hx : x = c
    · rw [if_pos hx] at h
      cases h
    · rw [if_neg hx] at h
      intro hm
      rcases List.mem_cons.mp hm with heq | hm'
      · exact hx heq.symm
      · rcases hs : splitOnce c xs with _ | p
        · exact ih hs hm'
        · rw [hs] at h
          cases h

theorem parseV4addr_dash {cs : List Char} (h : '-' ∈ cs) :
    parseV4addr cs = none := by
  rcases @splitAll_mem '.' '-' _ h (by decide) with ⟨g, hg, hdg⟩
  rw [parseV4addr, mapM_eq_none hg (by
    rw [parseOctet, parseNat_bad hdg (by decide)]
    rfl)]
  rfl

theorem parseV6addr_dash {cs : List Char} (h : '-' ∈ cs) :
    parseV6addr cs = none := by
  rcases hdc : splitDC cs with _ | ⟨l, r⟩
  · rcases @splitAll_mem ':' '-' _ h (by decide) with ⟨g, hg, hdg⟩
    rw [parseV6addr, hdc, Option.elim_none,
      mapM_eq_none hg (parseHexGroup_bad hdg (by decide))]
    rfl
  · have hcs := splitDC_eq_some hdc
    have hlr : '-' ∈ l ∨ '-' ∈ r := by
      rw [hcs] at h
      rcases List.mem_append.mp h with h' | h'
      · exact .inl h'
      · rcases List.mem_cons.mp h' with h'' | h''
        · cases h''
        · rcases List.mem_cons.mp h'' with h''' | h'''
          · cases h'''
          · exact .inr h'''
    have hpg : ∀ s : List Char, '-' ∈ s → parseGroups s = none := by
      intro s hms
      have hne : s ≠ [] := List.ne_nil_of_mem hms
      rcases @splitAll_mem ':' '-' _ hms (by decide) with ⟨g, hg, hdg⟩
      rw [parseGroups, if_neg (by simpa [List.isEmpty_iff] using hne),
        mapM_eq_none hg (parseHexGroup_bad hdg (by decide))]
    rw [parseV6addr, hdc, Option.elim_some]
    rcases hlr with hml | hmr
    · rw [hpg l hml]
      rfl
    · rcases hpl : parseGroups l with _ | lg
      · rfl
      · rw [Option.some_bind, hpg r hmr]
        rfl

theorem parseAnyNet_dash {cs : List Char} (h : '-' ∈ cs) :
    parseAnyNet cs = none := by
  rcases hsp : splitOnce '/' cs with _ | ⟨acs, lcs⟩
  · rw [parseAnyNet, hsp]
    rfl
  · obtain ⟨hcs, _⟩ := splitOnce_eq_some hsp
    have hal : '-' ∈ acs ∨ '-' ∈ lcs := by
      rw [hcs] at h
      rcases List.mem_append.mp h with h' | h'
      · exact .inl h'
      · rcases List.mem_cons.mp h' with h'' | h''
        · cases h''
        · exact .inr h''
    rw [parseAnyNet, hsp, Option.some_bind]
    rcases hal with hma | hml
    · rcases hpl : parseNat lcs with _ | len
      · rfl
      · rw [Option.some_bind]
        by_cases hcol : ':' ∈ acs
        · rw [if_pos hcol, parseV6addr_dash hma]
          rfl
        · rw [if_neg hcol, parseV4addr_dash hma]
          rfl
    · rw [parseNat_bad hml (by decide)]
      rfl

theorem v4ToChars_mem {c : Char} {a : Nat} (h : c ∈ v4ToChars a) :
    c = '.' ∨ ∃ d, d < 10 ∧ c = hexChar d := by
  rcases mem_joinSep h with rfl | ⟨g, hg, hcg⟩
  · exact .inl rfl
  · rcases List.mem_map.mp hg with ⟨o, _, rfl⟩
    exact .inr (natToChars_mem hcg)

theorem v6ToChars_mem {c : Char} {a : Nat} (h : c ∈ v6ToChars a) :
    c = ':' ∨ ∃ d, d < 16 ∧ c = hexChar d := by
  have hjoin : ∀ (sub : List Nat), c ∈ joinSep ':' (sub.map hexToChars) →
      c = ':' ∨ ∃ d, d < 16 ∧ c = hexChar d := by
    intro sub hsub
    rcases mem_joinSep hsub with rfl | ⟨g, hg, hcg⟩
    · exact .inl rfl
    · rcases List.mem_map.mp hg with ⟨o, _, rfl⟩
      exact .inr (hexToChars_mem hcg)
  rw [v6ToChars] at h
  by_cases hcomp : 2 ≤ (bestRun (v6Groups a)).2
  · rw [if_pos hcomp] at h
    rcases List.mem_append.mp h with h' | h'
    · exact hjoin _ h'
    · rcases List.mem_cons.mp h' with rfl | h''
      · exact .inl rfl
      · rcases List.mem_cons.mp h'' with rfl | h'''
        · exact .inl rfl
        · exact hjoin _ h'''
  · rw [if_neg hcomp] at h
    exact hjoin _ h

theorem colon_mem_v6ToChars (a : Nat) : ':' ∈ v6ToChars a := by
  rw [v6ToChars]
  by_cases hcomp : 2 ≤ (bestRun (v6Groups a)).2
  · rw [if_pos hcomp]
    exact List.mem_append.mpr (.inr (List.mem_cons_self _ _))
  · rw [if_neg hcomp]
    have hlen : (v6Groups a).length = 8 := length_groupsBE 65536 8 a
    rcases hml : (v6Groups a).map hexToChars with _ | ⟨g, rest⟩
    · rw [List.map_eq_nil_iff] at hml
      rw [hml] at hlen
      cases hlen
    · rcases rest with _ | ⟨g', rest'⟩
      · have := congrArg List.length hml
        rw [List.length_map, hlen] at this
        cases this
      · rw [joinSep]
        exact List.mem_append.mpr (.inr (List.mem_cons_self _ _))

theorem innerValid_split {w : Nat} {i : InnerRoaPrefixRange}
    (hv : innerValid w i = true) :
    i.pfx.addr < 2 ^ w ∧ i.pfx.len ≤ w ∧
      truncAddr w i.pfx.len i.pfx.addr = i.pfx.addr := by
  rw [innerValid] at hv
  simp only [Bool.and_eq_true, decide_eq_true_eq] at hv
  exact ⟨hv.1.1.1, hv.1.1.2, hv.1.2⟩

theorem innerValid_explicit {w l : Nat} {i : InnerRoaPrefixRange}
    (hv : innerValid w i = true) (hm : i.maxLength = .explicit l) :
    i.pfx.len < l ∧ l ≤ w := by
  rw [innerValid, hm] at hv
  simp only [Bool.and_eq_true, decide_eq_true_eq] at hv
  exact hv.2

theorem parseAnyNet_v4 {i : InnerRoaPrefixRange} (hv : innerValid 32 i = true) :
    parseAnyNet (v4ToChars i.pfx.addr ++ '/' :: natToChars i.pfx.len) =
      some (.ipv4, i.pfx) := by
  obtain ⟨ha, hl, ht⟩ := innerValid_split hv
  have hslash : '/' ∉ v4ToChars i.pfx.addr := by
    intro hmem
    rcases v4ToChars_mem hmem with h' | ⟨d, hd, h'⟩
    · cases h'
    · exact (hexChar_classes d (by omega)).2.2.1 h'.symm
  have hcolon : ':' ∉ v4ToChars i.pfx.addr := by
    intro hmem
    rcases v4ToChars_mem hmem with h' | ⟨d, hd, h'⟩
    · cases h'
    · exact (hexChar_classes d (by omega)).2.1 h'.symm
  rw [parseAnyNet, splitOnce_append hslash, Option.some_bind, parseNat_natToChars,
    Option.some_bind, if_neg hcolon, parseV4addr_v4ToChars ha, Option.some_bind,
    if_pos hl, ht]

theorem parseAnyNet_v6 {i : InnerRoaPrefixRange} (hv : innerValid 128 i = true) :
    parseAnyNet (v6ToChars i.pfx.addr ++ '/' :: natToChars i.pfx.len) =
      some (.ipv6, i.pfx) := by
  obtain ⟨ha, hl, ht⟩ := innerValid_split hv
  have hslash : '/' ∉ v6ToChars i.pfx.addr := by
    intro hmem
    rcases v6ToChars_mem hmem with h' | ⟨d, hd, h'⟩
    · cases h'
    · exact (hexChar_classes d hd).2.2.1 h'.symm
  rw [parseAnyNet, splitOnce_append hslash, Option.some_bind, parseNat_natToChars,
    Option.some_bind, if_pos (colon_mem_v6ToChars i.pfx.addr),
    parseV6addr_v6ToChars ha, Option.some_bind, if_pos hl, ht]

theorem natToChars_no_dash {c : Char} {n : Nat} (h : c ∈ natToChars n) : c ≠ '-' := by
  rcases natToChars_mem h with ⟨d, hd, rfl⟩
  exact (hexChar_classes d (by omega)).2.2.2

theorem render_inner_no_dash {c : Char} {i : InnerRoaPrefixRange}
    {addrToChars : Nat → List Char}
    (haddr : ∀ ch ∈ addrToChars i.pfx.addr, ch ≠ '-')
    (h : c ∈ addrToChars i.pfx.addr ++ '/' :: natToChars i.pfx.len) : c ≠ '-' := by
  rcases List.mem_append.mp h with h' | h'
  · exact haddr c h'
  · rcases List.mem_cons.mp h' with rfl | h''
    · decide
    · exact natToChars_no_dash h''

theorem v4ToChars_no_dash {c : Char} {a : Nat} (h : c ∈ v4ToChars a) : c ≠ '-' := by
  rcases v4ToChars_mem h with rfl | ⟨d, hd, rfl⟩
  · decide
  · exact (hexChar_classes d (by omega)).2.2.2

theorem v6ToChars_no_dash {c : Char} {a : Nat} (h : c ∈ v6ToChars a) : c ≠ '-' := by
  rcases v6ToChars_mem h with rfl | ⟨d, hd, rfl⟩
  · decide
  · exact (hexChar_classes d hd).2.2.2

theorem fromStr_renderInner {fam : AfiT} {addrToChars : Nat → List Char}
    {i : InnerRoaPrefixRange}
    (hparse : parseAnyNet (addrToChars i.pfx.addr ++ '/' :: natToChars i.pfx.len) =
      some (fam, i.pfx))
    (hnodash : ∀ ch ∈ addrToChars i.pfx.addr, ch ≠ '-')
    (hv : innerValid fam.width i = true) :
    RoaPrefixRange.fromStr (renderInner addrToChars i) =
      .ok (RoaPrefixRange.ofFam fam ⟨i.pfx,
        match i.maxLength with
        | .explicitEqual => .implicitEqual
        | m => m⟩) := by
  have hppnd : '-' ∉ (addrToChars i.pfx.addr ++ '/' :: natToChars i.pfx.len) := by
    intro hmem
    exact render_inner_no_dash hnodash hmem rfl
  rcases hm : i.maxLength with _ | _ | l
  · simp only [renderInner, hm, List.append_nil]
    simp only [RoaPrefixRange.fromStr, splitOnce_of_not_mem hppnd, hparse,
      InnerRoaPrefixRange.new, Except.map]
  · simp only [renderInner, hm, List.append_nil]
    simp only [RoaPrefixRange.fromStr, splitOnce_of_not_mem hppnd, hparse,
      InnerRoaPrefixRange.new, Except.map]
  · obtain ⟨hlt, hle⟩ := innerValid_explicit hv hm
    have hgt : ncmp l i.pfx.len = .gt := ncmp_gt_iff.mpr hlt
    simp only [renderInner, hm]
    simp only [RoaPrefixRange.fromStr, splitOnce_append hppnd, hparse,
      parseNat_natToChars, if_pos hle, InnerRoaPrefixRange.new, hgt, Except.map]

theorem fromStr_render {r : RoaPrefixRange} (h : r.valid = true) :
    RoaPrefixRange.fromStr r.render = .ok (canonicalize r) := by
  cases r with
  | ipv4 i =>
    exact fromStr_renderInner (parseAnyNet_v4 h) (fun ch hch => v4ToChars_no_dash hch) h
  | ipv6 i =>
    exact fromStr_renderInner (parseAnyNet_v6 h) (fun ch hch => v6ToChars_no_dash hch) h

theorem reverse_append_cons (x : Char) (p q : List Char) :
    (p ++ x :: q).reverse = q.reverse ++ x :: p.reverse := by
  rw [List.reverse_append, List.reverse_cons, List.append_assoc]
  rfl

theorem fromStr_eq_fromStrSpec (cs : List Char) :
    RoaPrefixRange.fromStr cs = fromStrSpec cs := by
  by_cases hd : '-' ∈ cs
  · rcases hsp : splitOnce '-' cs with _ | ⟨a, b⟩
    · exact absurd hd (not_mem_of_splitOnce_none hsp)
    · obtain ⟨hcs, hna⟩ := splitOnce_eq_some hsp
      by_cases hdb : '-' ∈ b
      · have hlhs : RoaPrefixRange.fromStr cs = .error .parseError := by
          simp only [RoaPrefixRange.fromStr, hsp]
          rcases hpan : parseAnyNet a with _ | fp
          · rfl
          · simp only [parseNat_bad hdb (by decide)]
        rcases hspR : splitOnce '-' cs.reverse with _ | ⟨rb, ra⟩
        · exact absurd (List.mem_reverse.mpr hd) (not_mem_of_splitOnce_none hspR)
        · obtain ⟨hcsR, hnrb⟩ := splitOnce_eq_some hspR
          have hsplitR : splitOnceR '-' cs = some (ra.reverse, rb.reverse) := by
            rw [splitOnceR, hspR]
            rfl
          have hbs : '-' ∉ rb.reverse := fun hm => hnrb (List.mem_reverse.mp hm)
          have hcs2 : cs = ra.reverse ++ '-' :: rb.reverse := by
            have h1 : cs.reverse.reverse = (rb ++ '-' :: ra).reverse := by
              rw [hcsR]
            rw [List.reverse_reverse, reverse_append_cons] at h1
            exact h1
          have hda : '-' ∈ ra.reverse := by
            by_contra hnda
            have h2 := @splitOnce_append '-' ra.reverse rb.reverse hnda
            rw [← hcs2, hsp] at h2
            injection h2 with h3
            injection h3 with h4 h5
            rw [h5] at hdb
            exact hbs hdb
          have hrhs : fromStrSpec cs = .error .parseError := by
            simp only [fromStrSpec, hsplitR, parseAnyNet_dash hda]
          rw [hlhs, hrhs]
      · have hsplitR : splitOnceR '-' cs = some (a, b) := by
          rw [splitOnceR]
          have hrev : cs.reverse = b.reverse ++ '-' :: a.reverse := by
            rw [hcs, reverse_append_cons]
          rw [hrev, splitOnce_append (fun hm => hdb (List.mem_reverse.mp hm))]
          simp
        simp only [RoaPrefixRange.fromStr, fromStrSpec, hsp, hsplitR]
  · have hnone : splitOnce '-' cs = none := splitOnce_of_not_mem hd
    have hnoneR : splitOnceR '-' cs = none := by
      rw [splitOnceR, splitOnce_of_not_mem (fun hm => hd (List.mem_reverse.mp hm))]
      rfl
    simp only [RoaPrefixRange.fromStr, fromStrSpec, hnone, hnoneR]

/-- OID of CMS signed-data content (`rasn_cms::CONTENT_SIGNED_DATA`,
modelled from the spec: the CMS signed-data content type,
1.2.840.113549.1.7.2). -/
def CONTENT_SIGNED_DATA : List Nat := [1, 2, 840, 113549, 1, 7, 2]

/-- `ID_CT_ROUTE_ORIGIN_AUTHZ` (`src/econtent.rs` lines 18-19):
1.2.840.113549.1.9.16.1.24. -/
def ID_CT_ROUTE_ORIGIN_AUTHZ : List Nat := [1, 2, 840, 113549, 1, 9, 16, 1, 24]

/-- `rasn_cms::ContentInfo` at the interface the program uses: the declared
content-type OID and the raw content bytes. -/
structure RoaContentInfo where
  content_type : List Nat
  content : List Nat

/-- `rasn_cms::EncapsulatedContentInfo` at the used interface. -/
structure EncapContentInfo where
  content_type : List Nat
  content : Option (List Nat)

/-- `rasn_cms::SignedData` at the used interface. -/
structure SignedData where
  encap_content_info : EncapContentInfo

/-- `RoaIpAddress` (`src/econtent.rs` lines 65-71): an address bit-string
and an optional max-length integer. -/
structure RoaIpAddress where
  address : List Bool
  max_length : Option Nat

/-- `RoaIpAddressFamily` (`src/econtent.rs` lines 42-48). -/
structure RoaIpAddressFamily where
  address_family : List Nat
  addresses : List RoaIpAddress

/-- `RouteOriginAttestation` (`src/econtent.rs` lines 23-30); only the
address blocks feed the canonicalization core. -/
structure RouteOriginAttestation where
  version : Int
  as_id : Nat
  ip_addr_blocks : List RoaIpAddressFamily

/-- `RoaIpAddressFamily::address_family` (`src/econtent.rs` lines 51-58):
the 2-byte family tag. -/
def addressFamily (fam : RoaIpAddressFamily) : Except RoaError AfiT :=
  match fam.address_family with
  | [0, 1] => .ok .ipv4
  | [0, 2] => .ok .ipv6
  | _ => .error .invalidAddressFamily

/-- Value of a bit-string zero-padded to `w` bits, most significant first
(modelled from the spec §4.3 step 6: reconstruct the network address from
the bit-string's raw bits). -/
def bitsToAddr (w : Nat) (bits : List Bool) : Nat :=
  bits.foldl (fun acc bit => acc * 2 + (if bit then 1 else 0)) 0 * 2 ^ (w - bits.length)

/-- `RoaIpAddress::address` (`src/econtent.rs` lines 73-81): the network
address from the raw bits and the prefix length from the declared bit
count, which must fit the family width. -/
def roaAddress (w : Nat) (addr : RoaIpAddress) : Except RoaError IpPrefix :=
  if addr.address.length ≤ w then
    .ok ⟨bitsToAddr w addr.address, addr.address.length⟩
  else .error .addrDecodeError

/-- `RoaIpAddress::max_length` (`src/econtent.rs` lines 83-94): the
optional integer, converted to a prefix length of the family. -/
def roaMaxLength (w : Nat) (addr : RoaIpAddress) : Except RoaError (Option Nat) :=
  match addr.max_length with
  | none => .ok none
  | some l => if l ≤ w then .ok (some l) else .error .addrDecodeError

/-- The per-address step of the binary decode (`src/ir.rs` lines 262-276):
extract prefix and max-length for the block's family, then apply the shared
construction rule `InnerRoaPrefixRange::new`. -/
def decodeRoaIpAddress (afi : AfiT) (addr : RoaIpAddress) :
    Except RoaError RoaPrefixRange :=
  (roaAddress afi.width addr).bind fun p =>
    (roaMaxLength afi.width addr).bind fun ml =>
      (InnerRoaPrefixRange.new p ml).map (RoaPrefixRange.ofFam afi)

/-- Decode one address-family block (`src/ir.rs` lines 258-277). -/
def decodeBlock (fam : RoaIpAddressFamily) : Except RoaError (List RoaPrefixRange) :=
  (addressFamily fam).bind fun afi => fam.addresses.mapM (decodeRoaIpAddress afi)

/-- `TryFrom<RoaContentInfo> for RoaPrefixRanges` (`src/ir.rs` lines
231-280): check the outer content-type OID equals the signed-data type;
decode the content as CMS `SignedData` (trusted DER decoder passed as a
parameter); check the encapsulated content-type OID equals the ROA type;
extract and decode the eContent (trusted decoder parameter); then map every
address of every block through the shared rule and collect into the ordered
map. -/
def tryFromContentInfo
    (decodeSignedData : List Nat → Except RoaError SignedData)
    (decodeEContent : List Nat → Except RoaError RouteOriginAttestation)
    (info : RoaContentInfo) : Except RoaError RangeMap :=
  if info.content_type ≠ CONTENT_SIGNED_DATA then .error .invalidSignedDataOid
  else
    (decodeSignedData info.content).bind fun sd =>
      if sd.encap_content_info.content_type ≠ ID_CT_ROUTE_ORIGIN_AUTHZ then
        .error .invalidRoaEContentOid
      else
        match sd.encap_content_info.content with
        | none => .error .missingEContent
        | some bytes =>
          (decodeEContent bytes).bind fun roa =>
            (roa.ip_addr_blocks.mapM decodeBlock).map
              (fun blocks => RoaPrefixRanges.build blocks.flatten)

/-- `RoaPrefixRanges::from_roa` (`src/ir.rs` lines 200-206), with the
trusted outer DER decoder as a parameter. -/
def fromRoa (decodeContentInfo : List Nat → Except RoaError RoaContentInfo)
    (decodeSignedData : List Nat → Except RoaError SignedData)
    (decodeEContent : List Nat → Except RoaError RouteOriginAttestation)
    (bytes : List Nat) : Except RoaError RangeMap :=
  (decodeContentInfo bytes).bind (tryFromContentInfo decodeSignedData decodeEContent)

/-- `RoaPrefixRanges::from_text` (`src/ir.rs` lines 189-198): parse every
line, failing the whole run on the first bad line, and collect the records
into the ordered map. -/
def RoaPrefixRanges.from_text (inputs : List (List Char)) : Except RoaError RangeMap :=
  (inputs.mapM RoaPrefixRange.fromStr).map RoaPrefixRanges.build

/-- The driver's mis-order diagnostic (`src/cli.rs` lines 32-35): some
entry's stored index differs from its canonical position. -/
def misOrdered (m : RangeMap) : Bool :=
  m.enum.any (fun e => e.1 != e.2.2)

/-- The driver's redundant-max-length diagnostic (`src/cli.rs` lines
36-40): some retained key has an explicit-equal max length. -/
def redundantMaxLength (m : RangeMap) : Bool :=
  m.any (fun e => e.1.has_explicit_equal_max_length)

theorem RoaPrefixRange.cmp_self_eq (r : RoaPrefixRange) : r.cmp r = .eq := by
  rw [RoaPrefixRange.cmp_eq_iff_key]

theorem innerCmp_eq_iff {i j : InnerRoaPrefixRange} :
    i.cmp j = .eq ↔
      i.pfx.addr = j.pfx.addr ∧ i.pfx.len = j.pfx.len ∧
        i.maxLength.cmp j.maxLength = .eq := by
  rw [InnerRoaPrefixRange.cmp]
  rcases h1 : ncmp i.pfx.addr j.pfx.addr with _ | _ | _ <;>
    rcases h2 : ncmp i.pfx.len j.pfx.len with _ | _ | _ <;>
    simp_all [ncmp_eq_iff, ncmp_lt_iff, ncmp_gt_iff] <;>
    omega

theorem mbeq_iff_cmp_eq {m n : MaxLength} : m.beq n = true ↔ m.cmp n = .eq := by
  rw [MaxLength.beq, obeq_true]

theorem beq_iff_cmp_eq (a b : RoaPrefixRange) :
    a.beq b = true ↔ a.cmp b = .eq := by
  cases a with
  | ipv4 i =>
    cases b with
    | ipv4 j =>
      rw [RoaPrefixRange.beq, RoaPrefixRange.cmp, innerCmp_eq_iff,
        InnerRoaPrefixRange.beq, IpPrefix.beq]
      simp [mbeq_iff_cmp_eq, and_assoc]
    | ipv6 j =>
      simp [show RoaPrefixRange.beq (.ipv4 i) (.ipv6 j) = false from rfl,
        show RoaPrefixRange.cmp (.ipv4 i) (.ipv6 j) = .lt from rfl]
  | ipv6 i =>
    cases b with
    | ipv4 j =>
      simp [show RoaPrefixRange.beq (.ipv6 i) (.ipv4 j) = false from rfl,
        show RoaPrefixRange.cmp (.ipv6 i) (.ipv4 j) = .gt from rfl]
    | ipv6 j =>
      rw [RoaPrefixRange.beq, RoaPrefixRange.cmp, innerCmp_eq_iff,
        InnerRoaPrefixRange.beq, IpPrefix.beq]
      simp [mbeq_iff_cmp_eq, and_assoc]

/-- C1: for every record sequence folded into the Canonical Collection, an
Ord-equality class with a later duplicate is mapped to the later (last)
occurrence's index, and the retained key is that same last occurrence's
record — amended: `collect` into a `BTreeMap` keeps the whole last pair of
an Ord-equal run, not the first-inserted key with an updated index. -/
theorem C1_build_keeps_last_pair : ∀ (rs : List RoaPrefixRange) (i j : Nat)
    (hi : i < rs.length) (hj : j < rs.length), i < j →
    rs[i].cmp rs[j] = .eq →
    (∀ m, j < m → (hm : m < rs.length) → rs[m].cmp rs[j] ≠ .eq) →
    lookupOrd rs[j] (RoaPrefixRanges.build rs) = some (rs[j], j) := by
  intro rs i j hi hj hij heq hlast
  rw [build_lookup, lastOrdEntry,
    lastOrdEntryAux_of_last hj (RoaPrefixRange.cmp_self_eq _) hlast 0, Nat.zero_add]

/-- Witness for C1: the crate's own test pair `10.0.0.0/24` then
`10.0.0.0/24-24` — the class maps to the last pair (record and index 1). -/
theorem C1_build_keeps_last_pair_witness :
    (0 : Nat) < 1 ∧
    lookupOrd (.ipv4 ⟨⟨167772160, 24⟩, .explicitEqual⟩)
        (RoaPrefixRanges.build
          [.ipv4 ⟨⟨167772160, 24⟩, .implicitEqual⟩,
            .ipv4 ⟨⟨167772160, 24⟩, .explicitEqual⟩]) =
      some (.ipv4 ⟨⟨167772160, 24⟩, .explicitEqual⟩, 1) :=
  ⟨by decide,
    C1_build_keeps_last_pair
      [.ipv4 ⟨⟨167772160, 24⟩, .implicitEqual⟩,
        .ipv4 ⟨⟨167772160, 24⟩, .explicitEqual⟩]
      0 1 (by decide) (by decide) (by decide) (by decide)
      (by
        intro m h1 h2
        rw [List.length_cons, List.length_cons, List.length_nil] at h2
        omega)⟩

/-- C1 counterexample: on input `[10.0.0.0/24, 10.0.0.0/24-24]` the
collection retains the *second* (ExplicitEqual) record as the key for the
collapsed class, not the first-inserted (ImplicitEqual) one, while the
stored index is the later occurrence's — so "the retained key is the
first-inserted record's representation" fails. -/
theorem C1_counterexample :
    (RoaPrefixRange.ipv4 ⟨⟨167772160, 24⟩, .explicitEqual⟩).cmp
        (.ipv4 ⟨⟨167772160, 24⟩, .implicitEqual⟩) = .eq ∧
    lookupOrd (.ipv4 ⟨⟨167772160, 24⟩, .implicitEqual⟩)
        (RoaPrefixRanges.build
          [.ipv4 ⟨⟨167772160, 24⟩, .implicitEqual⟩,
            .ipv4 ⟨⟨167772160, 24⟩, .explicitEqual⟩]) =
      some (.ipv4 ⟨⟨167772160, 24⟩, .explicitEqual⟩, 1) ∧
    (RoaPrefixRange.ipv4 ⟨⟨167772160, 24⟩, .explicitEqual⟩) ≠
      .ipv4 ⟨⟨167772160, 24⟩, .implicitEqual⟩ ∧
    (RoaPrefixRange.ipv4 ⟨⟨167772160, 24⟩, .explicitEqual⟩).has_explicit_equal_max_length
        = true ∧
    (RoaPrefixRange.ipv4 ⟨⟨167772160, 24⟩, .implicitEqual⟩).has_explicit_equal_max_length
        = false := by
  decide

/-- C2 (amended): when a record with an `ExplicitEqual` qualifier appears
after an Ord-equal `ImplicitEqual` record and is the last occurrence of its
class, the retained entry *is* the ExplicitEqual record, so it *does*
satisfy `has_explicit_equal_max_length()` and the driver's redundant
diagnostic fires, while the stored index is still the later occurrence's. -/
theorem C2_redundant_flagged : ∀ (rs : List RoaPrefixRange) (i j : Nat)
    (hi : i < rs.length) (hj : j < rs.length), i < j →
    rs[i].cmp rs[j] = .eq →
    rs[i].has_explicit_equal_max_length = false →
    rs[j].has_explicit_equal_max_length = true →
    (∀ m, j < m → (hm : m < rs.length) → rs[m].cmp rs[j] ≠ .eq) →
    lookupOrd rs[j] (RoaPrefixRanges.build rs) = some (rs[j], j) ∧
      redundantMaxLength (RoaPrefixRanges.build rs) = true := by
  intro rs i j hi hj hij heq himp hexp hlast
  have hlook : lookupOrd rs[j] (RoaPrefixRanges.build rs) = some (rs[j], j) := by
    rw [build_lookup, lastOrdEntry,
      lastOrdEntryAux_of_last hj (RoaPrefixRange.cmp_self_eq _) hlast 0, Nat.zero_add]
  refine ⟨hlook, ?_⟩
  rw [redundantMaxLength, List.any_eq_true]
  exact ⟨(rs[j], j), List.mem_of_find?_eq_some hlook, hexp⟩

/-- Witness for C2: `[10.0.0.0/24, 10.0.0.0/24-24, ::1/128]` — the
redundant diagnostic fires and the class's entry is the last pair. -/
theorem C2_redundant_flagged_witness :
    (0 : Nat) < 1 ∧
    lookupOrd (.ipv4 ⟨⟨167772160, 24⟩, .explicitEqual⟩)
        (RoaPrefixRanges.build
          [.ipv4 ⟨⟨167772160, 24⟩, .implicitEqual⟩,
            .ipv4 ⟨⟨167772160, 24⟩, .explicitEqual⟩,
            .ipv6 ⟨⟨1, 128⟩, .implicitEqual⟩]) =
        some (.ipv4 ⟨⟨167772160, 24⟩, .explicitEqual⟩, 1) ∧
      redundantMaxLength
        (RoaPrefixRanges.build
          [.ipv4 ⟨⟨167772160, 24⟩, .implicitEqual⟩,
            .ipv4 ⟨⟨167772160, 24⟩, .explicitEqual⟩,
            .ipv6 ⟨⟨1, 128⟩, .implicitEqual⟩]) = true :=
  ⟨by decide,
    C2_redundant_flagged
      [.ipv4 ⟨⟨167772160, 24⟩, .implicitEqual⟩,
        .ipv4 ⟨⟨167772160, 24⟩, .explicitEqual⟩,
        .ipv6 ⟨⟨1, 128⟩, .implicitEqual⟩]
      0 1 (by decide) (by decide) (by decide) (by decide) (by decide) (by decide)
      (by
        intro m h1 h2
        rw [List.length_cons, List.length_cons, List.length_cons,
          List.length_nil] at h2
        have hm2 : m = 2 := by omega
        subst hm2
        simp only [List.getElem_cons_succ, List.getElem_cons_zero]
        decide)⟩

/-- C2 counterexample: on input `[10.0.0.0/24, 10.0.0.0/24-24]` an
ExplicitEqual record appears after an Ord-equal ImplicitEqual record, yet
the retained entry for the class *does* satisfy
`has_explicit_equal_max_length()` and the redundant-max-length diagnostic
*does* fire — contradicting the claim's "does not satisfy / does not
fire". -/
theorem C2_counterexample :
    (RoaPrefixRange.ipv4 ⟨⟨167772160, 24⟩, .implicitEqual⟩).cmp
        (.ipv4 ⟨⟨167772160, 24⟩, .explicitEqual⟩) = .eq ∧
    (RoaPrefixRange.ipv4 ⟨⟨167772160, 24⟩, .implicitEqual⟩).has_explicit_equal_max_length
        = false ∧
    (RoaPrefixRange.ipv4 ⟨⟨167772160, 24⟩, .explicitEqual⟩).has_explicit_equal_max_length
        = true ∧
    (lookupOrd (.ipv4 ⟨⟨167772160, 24⟩, .explicitEqual⟩)
        (RoaPrefixRanges.build
          [.ipv4 ⟨⟨167772160, 24⟩, .implicitEqual⟩,
            .ipv4 ⟨⟨167772160, 24⟩, .explicitEqual⟩])).map
        (fun e => e.1.has_explicit_equal_max_length) = some true ∧
    redundantMaxLength
      (RoaPrefixRanges.build
        [.ipv4 ⟨⟨167772160, 24⟩, .implicitEqual⟩,
          .ipv4 ⟨⟨167772160, 24⟩, .explicitEqual⟩]) = true := by
  decide

/-- C3: record construction yields `ImplicitEqual` for an absent max-length,
fails with `InvalidRange` for a max-length below the prefix length, yields
`ExplicitEqual` at equality and `Explicit` above it; and both the text path
(`FromStr`) and the binary path (per-address decode) apply this same rule
through `InnerRoaPrefixRange::new`. -/
theorem C3_construction_rule : ∀ (p : IpPrefix) (l : Nat),
    InnerRoaPrefixRange.new p none = .ok ⟨p, .implicitEqual⟩ ∧
    (l < p.len → InnerRoaPrefixRange.new p (some l) = .error .invalidRange) ∧
    (l = p.len → InnerRoaPrefixRange.new p (some l) = .ok ⟨p, .explicitEqual⟩) ∧
    (p.len < l → InnerRoaPrefixRange.new p (some l) = .ok ⟨p, .explicit l⟩) ∧
    (∀ (afi : AfiT) (addr : RoaIpAddress),
      decodeRoaIpAddress afi addr =
        (roaAddress afi.width addr).bind fun q =>
          (roaMaxLength afi.width addr).bind fun ml =>
            (InnerRoaPrefixRange.new q ml).map (RoaPrefixRange.ofFam afi)) ∧
    (∀ (cs : List Char) (fp : AfiT × IpPrefix), '-' ∉ cs →
      parseAnyNet cs = some fp →
      RoaPrefixRange.fromStr cs =
        (InnerRoaPrefixRange.new fp.2 none).map (RoaPrefixRange.ofFam fp.1)) ∧
    (∀ (cs lcs : List Char) (fp : AfiT × IpPrefix), '-' ∉ cs →
      parseAnyNet cs = some fp → parseNat lcs = some l → l ≤ fp.1.width →
      RoaPrefixRange.fromStr (cs ++ '-' :: lcs) =
        (InnerRoaPrefixRange.new fp.2 (some l)).map (RoaPrefixRange.ofFam fp.1)) := by
  intro p l
  refine ⟨rfl, ?_, ?_, ?_, fun afi addr => rfl, ?_, ?_⟩
  · intro h
    simp [InnerRoaPrefixRange.new, ncmp_lt_iff.mpr h]
  · intro h
    simp [InnerRoaPrefixRange.new, ncmp_eq_iff.mpr h]
  · intro h
    simp [InnerRoaPrefixRange.new, ncmp_gt_iff.mpr h]
  · intro cs fp hnd hpan
    simp only [RoaPrefixRange.fromStr, splitOnce_of_not_mem hnd, hpan]
  · intro cs lcs fp hnd hpan hl hw
    simp only [RoaPrefixRange.fromStr, splitOnce_append hnd, hpan, hl, if_pos hw]

/-- Witness for C3: concrete instances of the three supplied-max-length
outcomes on the prefix `10.0.0.0/24`. -/
theorem C3_construction_rule_witness :
    InnerRoaPrefixRange.new ⟨167772160, 24⟩ (some 8) = .error .invalidRange ∧
    InnerRoaPrefixRange.new ⟨167772160, 24⟩ (some 24) =
      .ok ⟨⟨167772160, 24⟩, .explicitEqual⟩ ∧
    InnerRoaPrefixRange.new ⟨167772160, 24⟩ (some 30) =
      .ok ⟨⟨167772160, 24⟩, .explicit 30⟩ :=
  ⟨(C3_construction_rule ⟨167772160, 24⟩ 8).2.1 (by decide),
    (C3_construction_rule ⟨167772160, 24⟩ 24).2.2.1 (by decide),
    (C3_construction_rule ⟨167772160, 24⟩ 30).2.2.2.1 (by decide)⟩

/-- C4: `ImplicitEqual` and `ExplicitEqual` compare equal to each other,
either is strictly below every `Explicit(L)`, and two `Explicit` values
compare by their payload lengths. -/
theorem C4_qualifier_order : ∀ (p q : Nat),
    MaxLength.cmp .implicitEqual .implicitEqual = .eq ∧
    MaxLength.cmp .implicitEqual .explicitEqual = .eq ∧
    MaxLength.cmp .explicitEqual .implicitEqual = .eq ∧
    MaxLength.cmp .explicitEqual .explicitEqual = .eq ∧
    MaxLength.cmp .implicitEqual (.explicit p) = .lt ∧
    MaxLength.cmp .explicitEqual (.explicit p) = .lt ∧
    MaxLength.cmp (.explicit p) .implicitEqual = .gt ∧
    MaxLength.cmp (.explicit p) .explicitEqual = .gt ∧
    MaxLength.cmp (.explicit p) (.explicit q) = ncmp p q ∧
    (p < q → MaxLength.cmp (.explicit p) (.explicit q) = .lt) ∧
    (p = q → MaxLength.cmp (.explicit p) (.explicit q) = .eq) ∧
    (q < p → MaxLength.cmp (.explicit p) (.explicit q) = .gt) := by
  intro p q
  refine ⟨rfl, rfl, rfl, rfl, rfl, rfl, rfl, rfl, rfl, ?_, ?_, ?_⟩
  · intro h
    exact ncmp_lt_iff.mpr h
  · intro h
    exact ncmp_eq_iff.mpr h
  · intro h
    exact ncmp_gt_iff.mpr h

/-- Witness for C4: the three `Explicit`-to-`Explicit` outcomes on concrete
lengths. -/
theorem C4_qualifier_order_witness :
    MaxLength.cmp (.explicit 8) (.explicit 10) = .lt ∧
    MaxLength.cmp (.explicit 7) (.explicit 7) = .eq ∧
    MaxLength.cmp (.explicit 9) (.explicit 4) = .gt :=
  ⟨(C4_qualifier_order 8 10).2.2.2.2.2.2.2.2.2.1 (by decide),
    (C4_qualifier_order 7 7).2.2.2.2.2.2.2.2.2.2.1 (by decide),
    (C4_qualifier_order 9 4).2.2.2.2.2.2.2.2.2.2.2 (by decide)⟩

/-- C5: the record comparison is a total order — for any two records
exactly one of `a < b` (comparison `lt`), `a == b` (the `PartialEq` test,
which coincides with comparison `eq`) and `a > b` (comparison `gt`) holds,
and strict comparison is transitive. -/
theorem C5_total_order : ∀ (a b c : RoaPrefixRange),
    (RoaPrefixRange.cmp a b = .lt ∨ RoaPrefixRange.beq a b = true ∨
      RoaPrefixRange.cmp a b = .gt) ∧
    ¬(RoaPrefixRange.cmp a b = .lt ∧ RoaPrefixRange.beq a b = true) ∧
    ¬(RoaPrefixRange.beq a b = true ∧ RoaPrefixRange.cmp a b = .gt) ∧
    ¬(RoaPrefixRange.cmp a b = .lt ∧ RoaPrefixRange.cmp a b = .gt) ∧
    (RoaPrefixRange.cmp a b = .lt → RoaPrefixRange.cmp b c = .lt →
      RoaPrefixRange.cmp a c = .lt) := by
  intro a b c
  refine ⟨?_, ?_, ?_, ?_, fun h₁ h₂ => RoaPrefixRange.cmp_lt_trans h₁ h₂⟩
  · rcases h : a.cmp b with _ | _ | _
    · exact .inl rfl
    · exact .inr (.inl ((beq_iff_cmp_eq a b).mpr h))
    · exact .inr (.inr rfl)
  · rintro ⟨h₁, h₂⟩
    rw [beq_iff_cmp_eq, h₁] at h₂
    cases h₂
  · rintro ⟨h₁, h₂⟩
    rw [beq_iff_cmp_eq, h₂] at h₁
    cases h₁
  · rintro ⟨h₁, h₂⟩
    rw [h₁] at h₂
    cases h₂

/-- Witness for C5: transitivity at three concrete records. -/
theorem C5_total_order_witness :
    (RoaPrefixRange.ipv4 ⟨⟨167772160, 8⟩, .implicitEqual⟩).cmp
        (.ipv4 ⟨⟨167772160, 8⟩, .explicit 12⟩) = .lt ∧
    (RoaPrefixRange.ipv4 ⟨⟨167772160, 8⟩, .explicit 12⟩).cmp
        (.ipv6 ⟨⟨1, 128⟩, .implicitEqual⟩) = .lt ∧
    (RoaPrefixRange.ipv4 ⟨⟨167772160, 8⟩, .implicitEqual⟩).cmp
        (.ipv6 ⟨⟨1, 128⟩, .implicitEqual⟩) = .lt :=
  ⟨by decide, by decide,
    (C5_total_order (.ipv4 ⟨⟨167772160, 8⟩, .implicitEqual⟩)
        (.ipv4 ⟨⟨167772160, 8⟩, .explicit 12⟩)
        (.ipv6 ⟨⟨1, 128⟩, .implicitEqual⟩)).2.2.2.2
      (by decide) (by decide)⟩

/-- C6: every IPv4 record compares strictly below every IPv6 record, and
within a family records order lexicographically by network address, then
prefix length, then qualifier. -/
theorem C6_family_precedence : ∀ (i j : InnerRoaPrefixRange),
    RoaPrefixRange.cmp (.ipv4 i) (.ipv6 j) = .lt ∧
    RoaPrefixRange.cmp (.ipv6 j) (.ipv4 i) = .gt ∧
    (i.pfx.addr < j.pfx.addr →
      RoaPrefixRange.cmp (.ipv4 i) (.ipv4 j) = .lt ∧
        RoaPrefixRange.cmp (.ipv6 i) (.ipv6 j) = .lt) ∧
    (i.pfx.addr = j.pfx.addr → i.pfx.len < j.pfx.len →
      RoaPrefixRange.cmp (.ipv4 i) (.ipv4 j) = .lt ∧
        RoaPrefixRange.cmp (.ipv6 i) (.ipv6 j) = .lt) ∧
    (i.pfx.addr = j.pfx.addr → i.pfx.len = j.pfx.len →
      RoaPrefixRange.cmp (.ipv4 i) (.ipv4 j) = i.maxLength.cmp j.maxLength ∧
        RoaPrefixRange.cmp (.ipv6 i) (.ipv6 j) = i.maxLength.cmp j.maxLength) := by
  intro i j
  refine ⟨rfl, rfl, ?_, ?_, ?_⟩
  · intro h
    constructor <;>
      simp [RoaPrefixRange.cmp, InnerRoaPrefixRange.cmp, ncmp_lt_iff.mpr h]
  · intro h₁ h₂
    constructor <;>
      simp [RoaPrefixRange.cmp, InnerRoaPrefixRange.cmp, ncmp_eq_iff.mpr h₁,
        ncmp_lt_iff.mpr h₂]
  · intro h₁ h₂
    constructor <;>
      simp [RoaPrefixRange.cmp, InnerRoaPrefixRange.cmp, ncmp_eq_iff.mpr h₁,
        ncmp_eq_iff.mpr h₂]

/-- Witness for C6: the spec's own length/address/qualifier tie-break
examples. -/
theorem C6_family_precedence_witness :
    RoaPrefixRange.cmp (.ipv4 ⟨⟨167772160, 8⟩, .explicit 10⟩)
        (.ipv4 ⟨⟨184549376, 8⟩, .explicit 10⟩) = .lt ∧
    RoaPrefixRange.cmp (.ipv4 ⟨⟨167772160, 8⟩, .explicit 10⟩)
        (.ipv4 ⟨⟨167772160, 9⟩, .implicitEqual⟩) = .lt ∧
    RoaPrefixRange.cmp (.ipv4 ⟨⟨167772160, 8⟩, .explicit 10⟩)
        (.ipv4 ⟨⟨167772160, 8⟩, .explicit 12⟩) =
      MaxLength.cmp (.explicit 10) (.explicit 12) :=
  ⟨((C6_family_precedence ⟨⟨167772160, 8⟩, .explicit 10⟩
        ⟨⟨184549376, 8⟩, .explicit 10⟩).2.2.1 (by decide)).1,
    ((C6_family_precedence ⟨⟨167772160, 8⟩, .explicit 10⟩
        ⟨⟨167772160, 9⟩, .implicitEqual⟩).2.2.2.1 (by decide) (by decide)).1,
    ((C6_family_precedence ⟨⟨167772160, 8⟩, .explicit 10⟩
        ⟨⟨167772160, 8⟩, .explicit 12⟩).2.2.2.2 (by decide) (by decide)).1⟩

/-- C7: parsing a valid record's own canonical rendering succeeds and
produces an Ord-equal record (structurally, the reparse of an
`ExplicitEqual` record carries `ImplicitEqual`, which is Ord-equal). -/
theorem C7_roundtrip : ∀ (r : RoaPrefixRange), r.valid = true →
    RoaPrefixRange.fromStr r.render = .ok (canonicalize r) ∧
      (canonicalize r).cmp r = .eq :=
  fun r h => ⟨fromStr_render h, canonicalize_cmp_eq r⟩

/-- Witness for C7: the record `10.0.0.0/24-26` round-trips through its
rendering. -/
theorem C7_roundtrip_witness :
    (RoaPrefixRange.ipv4 ⟨⟨167772160, 24⟩, .explicit 26⟩).valid = true ∧
    (RoaPrefixRange.fromStr
        (RoaPrefixRange.ipv4 ⟨⟨167772160, 24⟩, .explicit 26⟩).render =
      .ok (canonicalize (.ipv4 ⟨⟨167772160, 24⟩, .explicit 26⟩)) ∧
      (canonicalize (.ipv4 ⟨⟨167772160, 24⟩, .explicit 26⟩)).cmp
        (.ipv4 ⟨⟨167772160, 24⟩, .explicit 26⟩) = .eq) :=
  ⟨by decide, C7_roundtrip (.ipv4 ⟨⟨167772160, 24⟩, .explicit 26⟩) (by decide)⟩

/-- C8: the binary decode checks the outer content-type OID against the
signed-data type and the encapsulated content-type OID against
1.2.840.113549.1.9.16.1.24, failing with the corresponding format error on
mismatch; in either failure case it returns an error before producing any
record (the trusted DER decoders are parameters). -/
theorem C8_oid_checks :
    ∀ (dci : List Nat → Except RoaError RoaContentInfo)
      (dsd : List Nat → Except RoaError SignedData)
      (dec : List Nat → Except RoaError RouteOriginAttestation)
      (bytes : List Nat) (info : RoaContentInfo),
      dci bytes = .ok info →
      ((info.content_type ≠ CONTENT_SIGNED_DATA →
        fromRoa dci dsd dec bytes = .error .invalidSignedDataOid) ∧
      (∀ sd : SignedData, info.content_type = CONTENT_SIGNED_DATA →
        dsd info.content = .ok sd →
        sd.encap_content_info.content_type ≠ ID_CT_ROUTE_ORIGIN_AUTHZ →
        fromRoa dci dsd dec bytes = .error .invalidRoaEContentOid)) := by
  intro dci dsd dec bytes info hinfo
  constructor
  · intro hne
    rw [fromRoa, hinfo]
    show tryFromContentInfo dsd dec info = _
    rw [tryFromContentInfo, if_pos hne]
  · intro sd hok hsd hne
    rw [fromRoa, hinfo]
    show tryFromContentInfo dsd dec info = _
    rw [tryFromContentInfo, if_neg (by simp [hok]), hsd]
    show (if sd.encap_content_info.content_type ≠ ID_CT_ROUTE_ORIGIN_AUTHZ then
        Except.error RoaError.invalidRoaEContentOid
      else _) = _
    rw [if_pos hne]

/-- Witness for C8: a wrong outer OID and a wrong encapsulated OID each
abort with the corresponding error. -/
theorem C8_oid_checks_witness :
    fromRoa (fun _ => .ok ⟨[9], []⟩)
        (fun _ => .error .cmsDecodeError) (fun _ => .error .eContentDecodeError)
        [] = .error .invalidSignedDataOid ∧
    fromRoa (fun _ => .ok ⟨CONTENT_SIGNED_DATA, []⟩)
        (fun _ => .ok ⟨⟨[9], none⟩⟩) (fun _ => .error .eContentDecodeError)
        [] = .error .invalidRoaEContentOid :=
  ⟨(C8_oid_checks (fun _ => .ok ⟨[9], []⟩)
      (fun _ => .error .cmsDecodeError) (fun _ => .error .eContentDecodeError)
      [] ⟨[9], []⟩ rfl).1 (by decide),
    (C8_oid_checks (fun _ => .ok ⟨CONTENT_SIGNED_DATA, []⟩)
      (fun _ => .ok ⟨⟨[9], none⟩⟩) (fun _ => .error .eContentDecodeError)
      [] ⟨CONTENT_SIGNED_DATA, []⟩ rfl).2 ⟨⟨[9], none⟩⟩ rfl rfl (by decide)⟩

/-- C9: the text decoder's observable behavior coincides, on every input
line, with the spec's grammar that splits PREFIX from MAXLEN at the first
`-` counted from the right-hand end (a line with no `-` is all PREFIX),
parses the prefix as an IPv4/IPv6 CIDR literal with the family
auto-detected and the max-length as an integer in the family's range, and
fails with a parse error otherwise. -/
theorem C9_text_grammar : ∀ (cs : List Char),
    RoaPrefixRange.fromStr cs = fromStrSpec cs :=
  fromStr_eq_fromStrSpec

/-- C10: the public equality test on records holds exactly when the
comparison returns `Equal`; in particular an `ImplicitEqual` record equals
the `ExplicitEqual` record on the same prefix even though
`has_explicit_equal_max_length()` distinguishes them. -/
theorem C10_eq_coincides_with_ord : ∀ (a b : RoaPrefixRange) (p : IpPrefix),
    (RoaPrefixRange.beq a b = true ↔ RoaPrefixRange.cmp a b = .eq) ∧
    RoaPrefixRange.beq (.ipv4 ⟨p, .implicitEqual⟩) (.ipv4 ⟨p, .explicitEqual⟩)
      = true ∧
    RoaPrefixRange.beq (.ipv6 ⟨p, .implicitEqual⟩) (.ipv6 ⟨p, .explicitEqual⟩)
      = true ∧
    RoaPrefixRange.has_explicit_equal_max_length (.ipv4 ⟨p, .implicitEqual⟩)
      = false ∧
    RoaPrefixRange.has_explicit_equal_max_length (.ipv4 ⟨p, .explicitEqual⟩)
      = true ∧
    RoaPrefixRange.has_explicit_equal_max_length (.ipv6 ⟨p, .implicitEqual⟩)
      = false ∧
    RoaPrefixRange.has_explicit_equal_max_length (.ipv6 ⟨p, .explicitEqual⟩)
      = true := by
  intro a b p
  refine ⟨beq_iff_cmp_eq a b, ?_, ?_, rfl, rfl, rfl, rfl⟩
  · rw [beq_iff_cmp_eq]
    show InnerRoaPrefixRange.cmp _ _ = _
    rw [innerCmp_eq_iff]
    exact ⟨rfl, rfl, rfl⟩
  · rw [beq_iff_cmp_eq]
    show InnerRoaPrefixRange.cmp _ _ = _
    rw [innerCmp_eq_iff]
    exact ⟨rfl, rfl, rfl⟩
